import Mathlib

/-!
Verification of the Wasynth WebAssembly-to-Luau translator core.

This file gives a shallow embedding of the translator's core passes and
settles a list of claims about them:

* `src/wasm-ir/src/passes/dead_code_elimination.rs` — the linear dead-code
  pruning pass (`DeadCodeElimination`);
* `src/wasm-ir/src/passes/read_write_annotation.rs` — the reverse-scan
  read/write annotation pass (`ReadWriteAnnotation`, embedded as `RWAnnot`);
* `src/ir/src/transform/mark_and_sweep.rs` together with
  `src/ir/src/data_flow/{graph,node,edge}.rs` — the region-IR graph and its
  mark-and-sweep garbage collection;
* `src/codegen/luau/src/backend/statement.rs` — the statement emitter
  (`Br`, `BrTable` dispatch, block emission);
* `src/wasm-ast/src/factory.rs` — the stack-to-tree lifter (`Factory`).

Machine integers (`usize`, `u32`) are embedded as `Nat`, with explicit
`% 2 ^ 64` arithmetic at the one place where wrapping is observable
(`Factory::build_stat_list`'s `list.len() - 1`).  Hash sets of variables are
embedded as `Finset` (the source notes that insertion order is not
observable).  Rust `Vec` push/pop stacks are embedded as Lean lists; unless
noted otherwise the head of the list models the top of the stack.  Places
where the Rust code would panic (`unwrap` on an empty stack, indexing a
missing slot-map key) are embedded by harmless total fall-through behaviour;
the theorems below only exercise the panic-free region.
-/

/-! ## Shared operator model

`wasmparser::Operator` restricted to the constructors that the translated
passes distinguish.  Operators that every pass treats uniformly (the bulk of
the arithmetic instructions) are represented by the two representative
constructors `i32Add` and `i32Eqz`.
-/

inductive ValTy where
  | i32 | i64 | f32 | f64
deriving DecidableEq

inductive BlockTy where
  | empty
  | value (t : ValTy)
  | func (i : Nat)
deriving DecidableEq

structure MemArg where
  memory : Nat
  offset : Nat
deriving DecidableEq

inductive LoadTy where
  | i32 | i64 | f32 | f64
  | i32i8 | i32u8 | i32i16 | i32u16
  | i64i8 | i64u8 | i64i16 | i64u16 | i64i32 | i64u32
deriving DecidableEq

inductive StoreTy where
  | i32 | i64 | f32 | f64
  | i32n8 | i32n16 | i64n8 | i64n16 | i64n32
deriving DecidableEq

inductive Op where
  | unreachable
  | nop
  | block (ty : BlockTy)
  | loop (ty : BlockTy)
  | ifOp (ty : BlockTy)
  | elseOp
  | endOp
  | br (depth : Nat)
  | brIf (depth : Nat)
  | brTable (targets : List Nat) (dflt : Nat)
  | ret
  | call (func : Nat)
  | callIndirect (ty : Nat) (table : Nat)
  | dropOp
  | select
  | localGet (i : Nat)
  | localSet (i : Nat)
  | localTee (i : Nat)
  | globalGet (i : Nat)
  | globalSet (i : Nat)
  | load (ty : LoadTy) (arg : MemArg)
  | store (ty : StoreTy) (arg : MemArg)
  | memorySize (mem : Nat)
  | memoryGrow (mem : Nat)
  | memoryCopy (dst : Nat) (src : Nat)
  | memoryFill (mem : Nat)
  | i32Const (v : Int)
  | i64Const (v : Int)
  | f32Const (bits : Nat)
  | f64Const (bits : Nat)
  | i32Add
  | i32Eqz
deriving DecidableEq

namespace DeadCodeElimination

/-- `Operator::Unreachable | Br | BrTable | Return` — the operators that
`DeadCodeElimination::maybe_end_of_block` treats as ending a block. -/
def isTerm : Op → Bool
  | .unreachable | .br _ | .brTable _ _ | .ret => true
  | _ => false

/-- `Operator::Block | Loop | If` — operators opening a nested region inside
dead code (`DeadCodeElimination::drop_unreachable`, first arm). -/
def isBlockStart : Op → Bool
  | .block _ | .loop _ | .ifOp _ => true
  | _ => false

/-- One step of `DeadCodeElimination::drop_unreachable` on the counter
`nested_unreachable = n` (only called with `n ≥ 1`). -/
def dropStep (n : Nat) : Op → Nat
  | .block _ | .loop _ | .ifOp _ => n + 1
  | .elseOp => if n = 1 then 0 else n
  | .endOp => n - 1
  | _ => n

/-- `DeadCodeElimination::run_tracking`: the first argument is the
`nested_unreachable` counter.  An operator is retained exactly when the pass
is reachable before it, or becomes reachable by processing it. -/
def runTracking : Nat → List Op → List Op
  | _, [] => []
  | 0, op :: rest =>
    op :: runTracking (if isTerm op then 1 else 0) rest
  | n + 1, op :: rest =>
    let m := dropStep (n + 1) op
    if m = 0 then op :: runTracking 0 rest else runTracking m rest

/-- `DeadCodeElimination::run`. -/
def run (list : List Op) : List Op :=
  runTracking 0 list

/-- Structural balance of an operator list: `Block`/`Loop`/`If` open a
nesting level, `End` closes one, every prefix keeps the level non-negative
and the whole list returns to the starting level `d`. -/
def balancedFrom (d : Nat) : List Op → Bool
  | [] => d == 0
  | op :: rest =>
    match op with
    | .block _ | .loop _ | .ifOp _ => balancedFrom (d + 1) rest
    | .endOp => d != 0 && balancedFrom (d - 1) rest
    | _ => balancedFrom d rest

end DeadCodeElimination

/-! ## Read/write annotation

`src/wasm-ir/src/passes/read_write_annotation.rs`.  The pass scans the
operator list in reverse, maintaining a stack of pending labels (one per
open block) and a parallel stack of branch flags.  `HashSet<Var>` is
embedded as `Finset Var`; `HashMap<usize, ReadWriteLabel>` as a function
`Nat → Option RWLabel`.  Rust `Vec` stacks are embedded with the list head
as the top of the stack.
-/

namespace RWAnnot

/-- `read_write_annotation::Var`. -/
inductive Var where
  | localVar (i : Nat)
  | globalVar (i : Nat)
deriving DecidableEq

/-- `read_write_annotation::ReadWriteLabel`. -/
structure RWLabel where
  readSet : Finset Var
  writeSet : Finset Var
deriving DecidableEq

/-- `ReadWriteLabel::linear_merge`: reads killed by the other side's writes
are removed, then reads and writes are unioned in. -/
def RWLabel.linearMerge (self other : RWLabel) : RWLabel :=
  ⟨self.readSet \ other.writeSet ∪ other.readSet,
    self.writeSet ∪ other.writeSet⟩

/-- `ReadWriteLabel::branch_merge`: read-union, write-intersect. -/
def RWLabel.branchMerge (self other : RWLabel) : RWLabel :=
  ⟨self.readSet ∪ other.readSet, self.writeSet ∩ other.writeSet⟩

/-- `ReadWriteAnnotation::track_operation` as the label of one leaf
operator. -/
def opLabel : Op → RWLabel
  | .localGet i => ⟨{.localVar i}, ∅⟩
  | .localSet i => ⟨∅, {.localVar i}⟩
  | .localTee i => ⟨{.localVar i}, {.localVar i}⟩
  | .globalGet i => ⟨{.globalVar i}, ∅⟩
  | .globalSet i => ⟨∅, {.globalVar i}⟩
  | _ => ⟨∅, ∅⟩

/-- The operators handled by `ReadWriteAnnotation::handle_boundary`. -/
def isBoundary : Op → Bool
  | .block _ | .loop _ | .ifOp _ | .elseOp | .endOp => true
  | _ => false

/-- The mutable state of `ReadWriteAnnotation` (`label_scratch` is always
rebuilt from scratch for a leaf, so it is not part of the state). -/
structure RWState where
  branchStack : List Bool
  pendingStack : List RWLabel
  resultMap : Nat → Option RWLabel

/-- `HashMap::insert`. -/
def insertResult (m : Nat → Option RWLabel) (k : Nat) (v : RWLabel) :
    Nat → Option RWLabel :=
  fun j => if j = k then some v else m j

/-- `ReadWriteAnnotation::handle_block` (for `Block`/`Loop` at index
`key`): pop the pending label and one branch flag, record the label.
The Rust code `unwrap`s; an underflow is embedded as a no-op. -/
def handleBlock (key : Nat) (s : RWState) : RWState :=
  match s.pendingStack, s.branchStack with
  | p :: ps, _ :: bs => ⟨bs, ps, insertResult s.resultMap key p⟩
  | _, _ => s

/-- `ReadWriteAnnotation::handle_if`: pop the pending label; if the popped
branch flag is set (an `Else` was seen) pop a second label and
branch-merge it in; record the result. -/
def handleIf (key : Nat) (s : RWState) : RWState :=
  match s.pendingStack, s.branchStack with
  | p :: ps, b :: bs =>
    if b then
      match ps with
      | q :: ps2 => ⟨bs, ps2, insertResult s.resultMap key (p.branchMerge q)⟩
      | [] => s
    else ⟨bs, ps, insertResult s.resultMap key p⟩
  | _, _ => s

/-- `ReadWriteAnnotation::handle_else`: push a fresh pending label and set
the top branch flag. -/
def handleElse (s : RWState) : RWState :=
  match s.branchStack with
  | _ :: bs => ⟨true :: bs, ⟨∅, ∅⟩ :: s.pendingStack, s.resultMap⟩
  | [] => s

/-- `ReadWriteAnnotation::handle_end`: push an unset branch flag and a
fresh pending label. -/
def handleEnd (s : RWState) : RWState :=
  ⟨false :: s.branchStack, ⟨∅, ∅⟩ :: s.pendingStack, s.resultMap⟩

/-- A leaf operator: clear the scratch label, apply `track_operation`, and
`linear_merge` the scratch into the top pending label. -/
def trackLeaf (op : Op) (s : RWState) : RWState :=
  match s.pendingStack with
  | t :: ps => ⟨s.branchStack, t.linearMerge (opLabel op) :: ps, s.resultMap⟩
  | [] => s

/-- One iteration of the loop in `ReadWriteAnnotation::add_label_data`, for
the operator at index `p.1`. -/
def rwStep (s : RWState) (p : Nat × Op) : RWState :=
  match p.2 with
  | .block _ | .loop _ => handleBlock p.1 s
  | .ifOp _ => handleIf p.1 s
  | .elseOp => handleElse s
  | .endOp => handleEnd s
  | op => trackLeaf op s

/-- Folding `rwStep` over an already-reversed indexed operator list. -/
def scanRev (s : RWState) (l : List (Nat × Op)) : RWState :=
  l.foldl rwStep s

/-- `code.iter().enumerate()` starting at index `i`. -/
def idxFrom (i : Nat) : List Op → List (Nat × Op)
  | [] => []
  | op :: rest => (i, op) :: idxFrom (i + 1) rest

/-- `usize::MAX`, the sentinel key used by `add_last_label`. -/
def sentinelKey : Nat := 2 ^ 64 - 1

/-- `ReadWriteAnnotation::add_last_label`: pop the outstanding label and
record it under the sentinel key. -/
def addLastLabel (s : RWState) : RWState :=
  match s.pendingStack with
  | p :: ps => ⟨s.branchStack, ps, insertResult s.resultMap sentinelKey p⟩
  | [] => s

/-- `ReadWriteAnnotation::run` on a fresh annotator. -/
def run (code : List Op) : Nat → Option RWLabel :=
  (addLastLabel (scanRev ⟨[], [], fun _ => none⟩ (idxFrom 0 code).reverse)).resultMap

/-- Structured operator sequences: `flat` (below) maps them onto exactly the
balanced operator lists.  `leafC` is any non-structural operator, the other
constructors spell out a `Block`/`Loop`/`If`/`If-Else` region followed by
the rest of the enclosing sequence. -/
inductive WCode where
  | nilC
  | leafC (op : Op) (rest : WCode)
  | blockC (ty : BlockTy) (inner : WCode) (rest : WCode)
  | loopC (ty : BlockTy) (inner : WCode) (rest : WCode)
  | if1C (ty : BlockTy) (arm : WCode) (rest : WCode)
  | if2C (ty : BlockTy) (thenArm : WCode) (elseArm : WCode) (rest : WCode)

/-- Flattening a structured sequence to its operator list. -/
def flat : WCode → List Op
  | .nilC => []
  | .leafC op rest => op :: flat rest
  | .blockC ty inner rest => .block ty :: (flat inner ++ (.endOp :: flat rest))
  | .loopC ty inner rest => .loop ty :: (flat inner ++ (.endOp :: flat rest))
  | .if1C ty arm rest => .ifOp ty :: (flat arm ++ (.endOp :: flat rest))
  | .if2C ty thenArm elseArm rest =>
    .ifOp ty :: (flat thenArm ++ (.elseOp :: (flat elseArm ++ (.endOp :: flat rest))))

/-- Well-formedness: leaves of a structured sequence are non-structural
operators. -/
def WFc : WCode → Bool
  | .nilC => true
  | .leafC op rest => !isBoundary op && WFc rest
  | .blockC _ inner rest => WFc inner && WFc rest
  | .loopC _ inner rest => WFc inner && WFc rest
  | .if1C _ arm rest => WFc arm && WFc rest
  | .if2C _ thenArm elseArm rest => WFc thenArm && WFc elseArm && WFc rest

/-- The label that the reverse scan accumulates into a pending label `L`
while passing over a structured sequence: only the top-level leaf operators
are linear-merged in; nested regions record into the result map but do not
touch the enclosing pending label (`handle_block`/`handle_if` pop without
merging into the parent). -/
def mergeCode (L : RWLabel) : WCode → RWLabel
  | .nilC => L
  | .leafC op rest => (mergeCode L rest).linearMerge (opLabel op)
  | .blockC _ _ rest => mergeCode L rest
  | .loopC _ _ rest => mergeCode L rest
  | .if1C _ _ rest => mergeCode L rest
  | .if2C _ _ _ rest => mergeCode L rest

/-- The read/write label of one structured block body, starting from the
fresh (empty) label pushed at its `End`. -/
def labelOf (c : WCode) : RWLabel := mergeCode ⟨∅, ∅⟩ c

end RWAnnot

/-! ## Region IR and mark-and-sweep

`src/ir/src/data_flow/{node,edge,graph}.rs` and
`src/ir/src/transform/mark_and_sweep.rs`.  `slotmap::SlotMap` /
`SecondaryMap` are embedded as association lists keyed by `Nat` (the opaque
`NodeId`); `retain` is `List.filter`, indexing is `find?`-lookup.  Indexing
a missing key panics in Rust; the embedding returns no neighbours there and
the theorems assume a well-formed graph (`WFg`), which is exactly the
panic-free case. -/

namespace RegionIR

/-- `node::Region` — a `(start, end)` pair of node handles (`end` is a Lean
keyword, so the field is named `endId`). -/
structure Region where
  startId : Nat
  endId : Nat
deriving DecidableEq

/-- `node::Simple`. -/
inductive Simple where
  | regionStart
  | regionEnd
deriving DecidableEq

/-- `node::Compound`. -/
inductive Compound where
  | gamma (regions : List Region)
  | theta (region : Region)
  | lambda (region : Region)
  | phi (region : Region)
deriving DecidableEq

/-- `node::Node`. -/
inductive Node where
  | simple (s : Simple)
  | compound (c : Compound)
deriving DecidableEq

/-- `Compound::as_regions`. -/
def Compound.asRegions : Compound → List Region
  | .gamma regions => regions
  | .theta region => [region]
  | .lambda region => [region]
  | .phi region => [region]

/-- `Node::as_regions`. -/
def Node.asRegions : Node → Option (List Region)
  | .simple _ => none
  | .compound c => some c.asRegions

/-- `edge::Edge` — `(node, start, end)`, ports inclusive on both ends
(`end` is a Lean keyword, so the field is named `stop`). -/
structure Edge where
  node : Nat
  start : Nat
  stop : Nat
deriving DecidableEq

/-- `Edge::ports` — the inclusive port range as a length. -/
def Edge.portsLen (e : Edge) : Nat := e.stop + 1 - e.start

/-- `graph::Graph`. -/
structure Graph where
  start : Option Nat
  nodes : List (Nat × Node)
  incoming : List (Nat × List Edge)

/-- `graph.nodes[id]` (slot-map lookup). -/
def lookupNode (g : Graph) (id : Nat) : Option Node :=
  (g.nodes.find? (fun p => p.1 == id)).map Prod.snd

/-- `graph.incoming[id]`. -/
def lookupIncoming (g : Graph) (id : Nat) : Option (List Edge) :=
  (g.incoming.find? (fun p => p.1 == id)).map Prod.snd

/-- The node handles named by a node's regions, in the order
`MarkAndSweep::mark_edges_at` visits them (each region's start then end). -/
def idsOfNode (n : Node) : List Nat :=
  match n.asRegions with
  | some regions => regions.flatMap (fun r => [r.startId, r.endId])
  | none => []

/-- The region-boundary handles enqueued by `mark_edges_at` for `id`. -/
def regionNeighbors (g : Graph) (id : Nat) : List Nat :=
  match lookupNode g id with
  | some n => idsOfNode n
  | none => []

/-- The incoming-edge sources enqueued by `mark_edges_at` for `id`. -/
def edgeNeighbors (g : Graph) (id : Nat) : List Nat :=
  match lookupIncoming g id with
  | some edges => edges.map Edge.node
  | none => []

/-- All handles enqueued by `mark_edges_at` for `id`, in visit order. -/
def neighbors (g : Graph) (id : Nat) : List Nat :=
  regionNeighbors g id ++ edgeNeighbors g id

/-- Every node handle mentioned anywhere in the graph; a bound for the
mark worklist. -/
def graphUniverse (g : Graph) : Finset Nat :=
  (g.start.toList
    ++ g.nodes.flatMap (fun p => p.1 :: idsOfNode p.2)
    ++ g.incoming.flatMap (fun p => p.1 :: p.2.map Edge.node)).toFinset

/-- The state of `transform::MarkAndSweep` (`nodes_visited`,
`nodes_pending`); the pending `Vec` is a LIFO, embedded with its top at the
list head. -/
structure MarkState where
  nodesVisited : Finset Nat
  nodesPending : List Nat

/-- `MarkAndSweep::mark_node_at`. -/
def markNodeAt (s : MarkState) (id : Nat) : MarkState :=
  if id ∈ s.nodesVisited then s
  else ⟨insert id s.nodesVisited, id :: s.nodesPending⟩

/-- `MarkAndSweep::mark_edges_at`: enqueue the region boundaries (for a
compound node) and then all incoming edge sources. -/
def markEdgesAt (g : Graph) (s : MarkState) (id : Nat) : MarkState :=
  (neighbors g id).foldl markNodeAt s

/-- The `while let Some(id) = nodes_pending.pop()` loop of
`MarkAndSweep::mark`.  Termination: every enqueued handle belongs to
`graphUniverse g`, so `2·|universe \ visited| + |pending|` strictly
decreases. -/
def markLoop (g : Graph) (s : MarkState) : MarkState :=
  match s with
  | ⟨v, []⟩ => ⟨v, []⟩
  | ⟨v, id :: rest⟩ => markLoop g (markEdgesAt g ⟨v, rest⟩ id)
termination_by 2 * ((graphUniverse g \ s.nodesVisited).card) + s.nodesPending.length
decreasing_by
  have hnb : ∀ x ∈ neighbors g id, x ∈ graphUniverse g := by
    intro x hx
    simp only [neighbors, List.mem_append] at hx
    simp only [graphUniverse, List.mem_toFinset, List.mem_append,
      List.mem_flatMap]
    rcases hx with hx | hx
    · simp only [regionNeighbors] at hx
      rcases hlk : lookupNode g id with _ | n
      · rw [hlk] at hx; simp at hx
      · rw [hlk] at hx
        simp only [lookupNode, Option.map_eq_some'] at hlk
        obtain ⟨p, hfind, hsnd⟩ := hlk
        have hpmem : p ∈ g.nodes := List.mem_of_find?_eq_some hfind
        refine Or.inl (Or.inr ⟨p, hpmem, ?_⟩)
        subst hsnd
        exact List.mem_cons_of_mem _ hx
    · simp only [edgeNeighbors] at hx
      rcases hlk : lookupIncoming g id with _ | es
      · rw [hlk] at hx; simp at hx
      · rw [hlk] at hx
        simp only [lookupIncoming, Option.map_eq_some'] at hlk
        obtain ⟨p, hfind, hsnd⟩ := hlk
        have hpmem : p ∈ g.incoming := List.mem_of_find?_eq_some hfind
        refine Or.inr ⟨p, hpmem, ?_⟩
        subst hsnd
        exact List.mem_cons_of_mem _ hx
  have key : ∀ (l : List Nat), (∀ x ∈ l, x ∈ graphUniverse g) →
      ∀ (v : Finset Nat) (p : List Nat),
      2 * ((graphUniverse g \ (l.foldl markNodeAt ⟨v, p⟩).nodesVisited).card)
          + (l.foldl markNodeAt ⟨v, p⟩).nodesPending.length
        ≤ 2 * ((graphUniverse g \ v).card) + p.length := by
    intro l
    induction l with
    | nil => intro _ v p; exact le_refl _
    | cons x xs ih =>
      intro hx v p
      have hx2 : ∀ y ∈ xs, y ∈ graphUniverse g :=
        fun y hy => hx y (List.mem_cons_of_mem _ hy)
      simp only [List.foldl_cons]
      by_cases hv : x ∈ v
      · have hid : markNodeAt ⟨v, p⟩ x = ⟨v, p⟩ := by
          simp [markNodeAt, hv]
        rw [hid]
        exact ih hx2 v p
      · have hid : markNodeAt ⟨v, p⟩ x = ⟨insert x v, x :: p⟩ := by
          simp [markNodeAt, hv]
        rw [hid]
        have h1 := ih hx2 (insert x v) (x :: p)
        have hxU : x ∈ graphUniverse g := hx x (List.mem_cons_self x xs)
        have hmem : x ∈ graphUniverse g \ v := Finset.mem_sdiff.mpr ⟨hxU, hv⟩
        have hcard : (graphUniverse g \ insert x v).card
            = (graphUniverse g \ v).card - 1 := by
          rw [Finset.sdiff_insert]
          exact Finset.card_erase_of_mem hmem
        have hpos : 1 ≤ (graphUniverse g \ v).card :=
          Finset.card_pos.mpr ⟨x, hmem⟩
        simp only [List.length_cons] at h1
        omega
  have h2 := key (neighbors g id) hnb v rest
  simp only [markEdgesAt, List.length_cons]
  omega

/-- `MarkAndSweep::mark` starting from a cleared state. -/
def runMark (g : Graph) : Finset Nat :=
  let s1 : MarkState :=
    match g.start with
    | some st => markNodeAt ⟨∅, []⟩ st
    | none => ⟨∅, []⟩
  (markLoop g s1).nodesVisited

/-- `MarkAndSweep::run`: mark, then retain only visited keys in the node
map and the incoming map. -/
def runSweep (g : Graph) : Graph :=
  let visited := runMark g
  { start := g.start,
    nodes := g.nodes.filter (fun p => decide (p.1 ∈ visited)),
    incoming := g.incoming.filter (fun p => decide (p.1 ∈ visited)) }

/-- The keys of the node map. -/
def nodeKeys (g : Graph) : List Nat := g.nodes.map Prod.fst

/-- The keys of the incoming map. -/
def incomingKeys (g : Graph) : List Nat := g.incoming.map Prod.fst

/-- One reachability step: `y` is enqueued when `x` is marked. -/
def stepRel (g : Graph) (x y : Nat) : Prop := y ∈ neighbors g x

/-- Reachability along incoming-edge sources and region boundaries. -/
def Reaches (g : Graph) (x y : Nat) : Prop :=
  Relation.ReflTransGen (stepRel g) x y

/-- Reachability from `Graph.start`. -/
def ReachableFromStart (g : Graph) (z : Nat) : Prop :=
  ∃ s, g.start = some s ∧ Reaches g s z

/-- Well-formedness of a graph: the start node (if any) is a key of the
node map, neighbours of keys are keys, and the incoming map has exactly
the node map's keys.  This is precisely the condition under which the Rust
`mark` never indexes a missing slot-map key (which would panic). -/
def WFg (g : Graph) : Prop :=
  (∀ s ∈ g.start.toList, s ∈ nodeKeys g) ∧
  (∀ id ∈ nodeKeys g, ∀ y ∈ neighbors g id, y ∈ nodeKeys g) ∧
  (∀ id ∈ incomingKeys g, id ∈ nodeKeys g) ∧
  (∀ id ∈ nodeKeys g, id ∈ incomingKeys g)

instance (g : Graph) : Decidable (WFg g) := by
  unfold WFg
  infer_instance

end RegionIR

/-! ## AST nodes

Modelled from the spec: `wasm-ast/src/node.rs` is not under `src/`; the
entity table in the spec (section 3) together with the uses in
`factory.rs` and `backend/statement.rs` fixes the shapes below.  Operator
type tags (`UnOpType`/`BinOpType`/`CmpOpType`) and their `TryFrom`
conversions live in the missing file too; they are modelled with the
representative constructors the factory embedding needs plus an opaque
numeric code. -/

namespace WasmAst

/-- Modelled from the spec: `node::Value` — constants carried as `i32` /
`i64` integers or raw float bit patterns. -/
inductive Val where
  | i32 (v : Int)
  | i64 (v : Int)
  | f32Bits (bits : Nat)
  | f64Bits (bits : Nat)
deriving DecidableEq

/-- Modelled from the spec: `node::UnOpType` (opaque). -/
inductive UnOpTy where
  | rep (code : Nat)
deriving DecidableEq

/-- Modelled from the spec: `node::BinOpType`; `addI32` is the
representative tag `BinOpType::try_from` yields for `Operator::I32Add`. -/
inductive BinOpTy where
  | addI32
  | rep (code : Nat)
deriving DecidableEq

/-- Modelled from the spec: `node::CmpOpType`; `eqI32`/`eqI64` are the
tags used by the factory's `Eqz` emulation. -/
inductive CmpOpTy where
  | eqI32
  | eqI64
  | rep (code : Nat)
deriving DecidableEq

/-- Modelled from the spec: `node::Expression` — an owned expression tree;
`getTemporary` reads the named stack temporary slot. -/
inductive Expression where
  | value (v : Val)
  | getLocal (var : Nat)
  | getGlobal (var : Nat)
  | getTemporary (var : Nat)
  | loadAt (loadType : LoadTy) (memory : Nat) (offset : Nat)
      (pointer : Expression)
  | unOp (opType : UnOpTy) (rhs : Expression)
  | binOp (opType : BinOpTy) (lhs : Expression) (rhs : Expression)
  | cmpOp (opType : CmpOpTy) (lhs : Expression) (rhs : Expression)
  | select (condition : Expression) (onTrue : Expression)
      (onFalse : Expression)
  | memorySize (memory : Nat)
deriving DecidableEq

/-- Modelled from the spec: `node::ResultList` — a contiguous range of
temporary slots (`start ..< start + size`). -/
structure TempRange where
  start : Nat
  size : Nat
deriving DecidableEq

/-- Modelled from the spec (glossary): `node::Align` — a pair of integer
ranges describing where the source block's value-producing slots sit
relative to the target's. -/
structure Align where
  oldRange : TempRange
  newRange : TempRange
deriving DecidableEq

/-- `Align::is_aligned` — trivial when the ranges coincide. -/
def Align.isAligned (a : Align) : Bool := a.oldRange == a.newRange

/-- `node::Br`. -/
structure Br where
  target : Nat
  align : Align
deriving DecidableEq

/-- `node::BrIf`. -/
structure BrIf where
  condition : Expression
  target : Br
deriving DecidableEq

/-- `node::BrTable`. -/
structure BrTable where
  condition : Expression
  data : List Br
  default : Br
deriving DecidableEq

/-- `node::LabelType`. -/
inductive LabelType where
  | forward
  | backward
deriving DecidableEq

/-- `node::MemoryArgument`. -/
structure MemoryArgument where
  memory : Nat
  pointer : Expression
deriving DecidableEq

/-- `node::Call`. -/
structure CallStat where
  function : Nat
  paramList : List Expression
  resultList : TempRange
deriving DecidableEq

/-- `node::CallIndirect`. -/
structure CallIndirectStat where
  table : Nat
  index : Expression
  paramList : List Expression
  resultList : TempRange
deriving DecidableEq

/-- `node::SetTemporary`. -/
structure SetTemporaryStat where
  var : Nat
  value : Expression
deriving DecidableEq

/-- `node::SetLocal`. -/
structure SetLocalStat where
  var : Nat
  value : Expression
deriving DecidableEq

/-- `node::SetGlobal`. -/
structure SetGlobalStat where
  var : Nat
  value : Expression
deriving DecidableEq

/-- `node::StoreAt`. -/
structure StoreAtStat where
  storeType : StoreTy
  memory : Nat
  offset : Nat
  value : Expression
  pointer : Expression
deriving DecidableEq

/-- `node::MemoryGrow` — the result goes to a temporary slot. -/
structure MemoryGrowStat where
  memory : Nat
  result : Nat
  size : Expression
deriving DecidableEq

/-- `node::MemoryCopy`. -/
structure MemoryCopyStat where
  destination : MemoryArgument
  source : MemoryArgument
  size : Expression
deriving DecidableEq

/-- `node::MemoryFill`. -/
structure MemoryFillStat where
  destination : MemoryArgument
  size : Expression
  value : Expression
deriving DecidableEq

/-- `node::Terminator`. -/
inductive Terminator where
  | unreachableT
  | brT (b : Br)
  | brTableT (t : BrTable)
deriving DecidableEq

mutual
/-- `node::Statement`. -/
inductive Statement where
  | blockS (b : Blk)
  | brIfS (b : BrIf)
  | ifS (i : IfStat)
  | callS (c : CallStat)
  | callIndirectS (c : CallIndirectStat)
  | setTemporaryS (s : SetTemporaryStat)
  | setLocalS (s : SetLocalStat)
  | setGlobalS (s : SetGlobalStat)
  | storeAtS (s : StoreAtStat)
  | memoryGrowS (s : MemoryGrowStat)
  | memoryCopyS (s : MemoryCopyStat)
  | memoryFillS (s : MemoryFillStat)

/-- `node::Block` (named `Blk`; `Block` is taken by the operator). -/
inductive Blk where
  | mk (labelType : Option LabelType) (code : List Statement)
      (last : Option Terminator)

/-- `node::If`. -/
inductive IfStat where
  | mk (condition : Expression) (onTrue : Blk) (onFalse : Option Blk)
end

/-- `Block::label_type`. -/
def Blk.labelType : Blk → Option LabelType
  | .mk lt _ _ => lt

/-- `Block::code`. -/
def Blk.code : Blk → List Statement
  | .mk _ c _ => c

/-- `Block::last`. -/
def Blk.last : Blk → Option Terminator
  | .mk _ _ l => l

end WasmAst

/-! ## Luau backend statement emitter

`src/codegen/luau/src/backend/statement.rs`.  The `Manager` lives in the
missing `backend/manager.rs` and is modelled from the spec (section 4.6).
Output is embedded at line granularity as a list of `OutItem`s: each
`line!`/`indented!` group becomes one item carrying the indentation depth;
statements whose rendering lives in the missing `expression.rs` are
carried as one structured item. -/

namespace LuauBackend

open WasmAst

/-- Modelled from the spec: `backend::manager::Manager` — indentation
depth, the stack of label kinds (one per enclosing emitted `Block`, the
`Vec`'s last element innermost), the has-branch / has-`BrTable` flags, the
`BrTable` id registry, and the in-scope temporary/local budgets. -/
structure Mng where
  labelList : List (Option LabelType)
  depth : Nat
  hasBranch : Bool
  hasTable : Bool
  tableKeys : List BrTable
  numTemp : Nat
  numLocal : Nat

/-- `Manager::push_label`. -/
def Mng.pushLabel (m : Mng) (lt : Option LabelType) : Mng :=
  { m with labelList := m.labelList ++ [lt] }

/-- `Manager::pop_label`. -/
def Mng.popLabel (m : Mng) : Mng :=
  { m with labelList := m.labelList.dropLast }

/-- `Manager::indent`. -/
def Mng.indent (m : Mng) : Mng := { m with depth := m.depth + 1 }

/-- `Manager::dedent`. -/
def Mng.dedent (m : Mng) : Mng := { m with depth := m.depth - 1 }

/-- Modelled from the spec: `Manager::get_table_index` — a stable small
integer id per `BrTable` instance, allocated on first use. -/
def Mng.getTableIndex (m : Mng) (t : BrTable) : Nat × Mng :=
  match m.tableKeys.indexOf? t with
  | some i => (i, m)
  | none => (m.tableKeys.length, { m with tableKeys := m.tableKeys ++ [t] })

/-- One emitted line (or line group) of target source. -/
inductive OutItem where
  | strLine (depth : Nat) (s : String)
  | rangeAssign (depth : Nat) (dst : TempRange) (src : TempRange)
  | ifCondLine (depth : Nat) (c : Expression)
  | simpleStat (depth : Nat) (s : Statement)
  | tableSetup (depth : Nat) (id : Nat) (t : BrTable)

/-- `impl Driver for Br` (`statement.rs`, lines 27–50): write the
range-to-range assignment unless the alignment is trivial; then `continue`
for a zero-depth branch to a backward label, `break` for any other
zero-depth branch, and `desired = level; break` for a deeper branch. -/
def writeBr (m : Mng) (br : Br) : List OutItem :=
  (if !br.align.isAligned then
      [OutItem.rangeAssign m.depth br.align.newRange br.align.oldRange]
    else [])
  ++ (if br.target = 0 then
        (if m.labelList.getLast? = some (some LabelType.backward) then
          [OutItem.strLine m.depth "continue"]
        else [OutItem.strLine m.depth "break"])
      else
        [OutItem.strLine m.depth
            ("desired = " ++ toString (m.labelList.length - 1 - br.target)),
          OutItem.strLine m.depth "break"])

/-- Stable insertion of one `Br` before the first entry of strictly larger
target. -/
def sortInsert (a : Br) : List Br → List Br
  | [] => [a]
  | b :: l => if a.target ≤ b.target then a :: b :: l else b :: sortInsert a l

/-- `slice::sort_by_key(|v| v.target())`.  Rust's sort is stable, and a
stable sort's output is uniquely determined by the key order, so this
insertion sort is extensionally the same function. -/
def sortByTarget : List Br → List Br
  | [] => []
  | a :: l => sortInsert a (sortByTarget l)

/-- `Vec::dedup_by_key(|v| v.target())` — drop all but the first of each
run of consecutive entries with equal targets. -/
def dedupByTarget : List Br → List Br
  | [] => []
  | [a] => [a]
  | a :: b :: rest =>
    if b.target = a.target then dedupByTarget (a :: rest)
    else a :: dedupByTarget (b :: rest)
termination_by l => l.length

/-- `to_ordered_table` (`statement.rs`, lines 52–62): chain the default
onto the target list, sort by target, deduplicate by target. -/
def toOrderedTable (list : List Br) (dflt : Br) : List Br :=
  dedupByTarget (sortByTarget (list ++ [dflt]))

/-- The `Br` used when an index is out of bounds (Rust would panic; the
embedded search layer is only entered on valid ranges). -/
def junkBr : Br := ⟨0, ⟨⟨0, 0⟩, ⟨0, 0⟩⟩⟩

/-- `write_search_layer` (`statement.rs`, lines 64–98): binary search over
`list[lo..hi)`.  Rust recurses forever on an empty range; the embedding
returns no output there (the caller only passes non-empty ranges). -/
def writeSearchLayer (lo hi : Nat) (list : List Br) (m : Mng) :
    List OutItem :=
  if h1 : hi ≤ lo then []
  else if h2 : hi = lo + 1 then writeBr m (list.getD lo junkBr)
  else
    let center := lo + (hi - lo) / 2
    let br := list.getD center junkBr
    (if lo ≠ center then
        [OutItem.strLine m.depth
            ("if temp < " ++ toString br.target ++ " then")]
        ++ writeSearchLayer lo center list m.indent
        ++ [OutItem.strLine m.depth "else"]
      else [])
    ++ (if hi ≠ center + 1 then
        [OutItem.strLine m.depth
            ("if temp > " ++ toString br.target ++ " then")]
        ++ writeSearchLayer (center + 1) hi list m.indent
        ++ [OutItem.strLine m.depth "else"]
      else [])
    ++ writeBr m.indent br
    ++ [OutItem.strLine m.depth "end"]
termination_by hi - lo
decreasing_by
  · omega
  · omega

/-- `write_table_setup` (`statement.rs`, lines 100–123): the lazy `br_map`
initialisation and the `temp = br_map[id][cond] or default` lookup, as one
structured item. -/
def writeTableSetup (t : BrTable) (m : Mng) : List OutItem × Mng :=
  match m.getTableIndex t with
  | (id, m1) => ([OutItem.tableSetup m1.depth id t], m1)

/-- `impl Driver for BrTable` (`statement.rs`, lines 125–142): an empty
target list falls through to the default `Br`; otherwise build the ordered
table, emit the setup, then the binary search tree. -/
def writeBrTable (t : BrTable) (m : Mng) : List OutItem × Mng :=
  if t.data = [] then (writeBr m t.default, m)
  else
    let list := toOrderedTable t.data t.default
    match writeTableSetup t m with
    | (items, m1) => (items ++ writeSearchLayer 0 list.length list m1, m1)

/-- `impl Driver for Terminator`. -/
def writeTerminator (t : Terminator) (m : Mng) : List OutItem × Mng :=
  match t with
  | .unreachableT => ([OutItem.strLine m.depth "error(\"out of code bounds\")"], m)
  | .brT b => (writeBr m b, m)
  | .brTableT tb => writeBrTable tb m

/-- `write_br_parent` (`statement.rs`, lines 154–181): the branch-parent
escape emitted after a block when the function branches and some enclosing
label is live. -/
def writeBrParent (m : Mng) : List OutItem :=
  if !m.hasBranch || m.labelList.all (fun l => l.isNone) then []
  else
    [OutItem.strLine m.depth "if desired then"]
    ++ (match m.labelList.getLast?.getD none with
        | some lastLt =>
          [OutItem.strLine (m.depth + 1)
              ("if desired == " ++ toString (m.labelList.length - 1) ++ " then"),
            OutItem.strLine (m.depth + 2) "desired = nil"]
          ++ (if lastLt = LabelType.backward then
                [OutItem.strLine (m.depth + 2) "continue"]
              else [])
          ++ [OutItem.strLine (m.depth + 1) "end"]
        | none => [])
    ++ [OutItem.strLine (m.depth + 1) "break"]
    ++ [OutItem.strLine m.depth "end"]

/-- `impl Driver for BrIf`: `if cond then <br> end`. -/
def writeBrIfItems (bi : BrIf) (m : Mng) : List OutItem :=
  OutItem.ifCondLine m.depth bi.condition :: writeBr m.indent bi.target
    ++ [OutItem.strLine m.depth "end"]

mutual
/-- `impl Driver for Statement`: control statements recurse; the simple
statements are written through `write_stat` as one line. -/
def writeStatement (s : Statement) (m : Mng) : List OutItem × Mng :=
  match s with
  | .blockS b => writeBlk b m
  | .brIfS bi => (writeBrIfItems bi m, m)
  | .ifS i => writeIfStat i m
  | .callS c => ([OutItem.simpleStat m.depth (.callS c)], m)
  | .callIndirectS c => ([OutItem.simpleStat m.depth (.callIndirectS c)], m)
  | .setTemporaryS x => ([OutItem.simpleStat m.depth (.setTemporaryS x)], m)
  | .setLocalS x => ([OutItem.simpleStat m.depth (.setLocalS x)], m)
  | .setGlobalS x => ([OutItem.simpleStat m.depth (.setGlobalS x)], m)
  | .storeAtS x => ([OutItem.simpleStat m.depth (.storeAtS x)], m)
  | .memoryGrowS x => ([OutItem.simpleStat m.depth (.memoryGrowS x)], m)
  | .memoryCopyS x => ([OutItem.simpleStat m.depth (.memoryCopyS x)], m)
  | .memoryFillS x => ([OutItem.simpleStat m.depth (.memoryFillS x)], m)

/-- `impl Driver for Block` (`statement.rs`, lines 183–203): push the
label, open `while true do`, write the body, the terminator (or a sentinel
`break`), close, pop the label, then the branch-parent escape. -/
def writeBlk (b : Blk) (m : Mng) : List OutItem × Mng :=
  match b with
  | .mk lt code last =>
    let m1 := m.pushLabel lt
    let m2 := m1.indent
    match writeStatList code m2 with
    | (codeItems, m3) =>
      match
        (match last with
          | some v => writeTerminator v m3
          | none => ([OutItem.strLine m3.depth "break"], m3)) with
      | (termItems, m4) =>
        let m5 := m4.dedent
        let m6 := m5.popLabel
        (OutItem.strLine m1.depth "while true do" :: codeItems ++ termItems
          ++ [OutItem.strLine m5.depth "end"] ++ writeBrParent m6, m6)

/-- The `try_for_each` over a block's statements. -/
def writeStatList (l : List Statement) (m : Mng) : List OutItem × Mng :=
  match l with
  | [] => ([], m)
  | s :: rest =>
    match writeStatement s m with
    | (i1, m1) =>
      match writeStatList rest m1 with
      | (i2, m2) => (i1 ++ i2, m2)

/-- `impl Driver for If`: `if cond then <on_true> [else <on_false>] end`. -/
def writeIfStat (i : IfStat) (m : Mng) : List OutItem × Mng :=
  match i with
  | .mk c onTrue onFalse =>
    match writeBlk onTrue m.indent with
    | (i1, m1) =>
      let m2 := m1.dedent
      match onFalse with
      | some fb =>
        match writeBlk fb m2.indent with
        | (i2, m3) =>
          let m4 := m3.dedent
          (OutItem.ifCondLine m.depth c :: i1
            ++ [OutItem.strLine m2.depth "else"] ++ i2
            ++ [OutItem.strLine m4.depth "end"], m4)
      | none =>
        (OutItem.ifCondLine m.depth c :: i1
          ++ [OutItem.strLine m2.depth "end"], m2)
end

end LuauBackend

/-! ## Factory: the stack-to-tree lifter

`src/wasm-ast/src/factory.rs`.  The operand `Stack` and the `ReadGet`
traversal live in `wasm-ast/src/stack.rs`, which is not under `src/`; they
are modelled from the spec (section 4.5): the operand stack holds
expressions, slot `previous + i` names the temporary for stack position
`i`, `leak_into` spills each pending entry selected by the predicate into
its slot (emitting `SetTemporary` statements in evaluation order, skipping
entries that already are their own slot's temporary), and `ReadGet` is the
structural traversal of `GetLocal`/`GetGlobal`/`LoadAt` leaves. -/

namespace Factory

open WasmAst

/-- Modelled from the spec: `stack::Stack` — the operand stack (`Vec`
order: bottom first, top last), the maximum observed slot count
(`capacity`, the lifted function's `num_stack`), and the base slot pointer
`previous`. -/
structure Stack where
  varList : List Expression
  capacity : Nat
  previous : Nat

/-- The expression returned when popping an empty stack (Rust panics). -/
def junkExpr : Expression := Expression.value (.i32 0)

/-- Modelled from the spec: `Stack::pop`. -/
def Stack.pop (s : Stack) : Expression × Stack :=
  match s.varList.getLast? with
  | some e => (e, { s with varList := s.varList.dropLast })
  | none => (junkExpr, s)

/-- Modelled from the spec: `Stack::push`. -/
def Stack.push (s : Stack) (e : Expression) : Stack :=
  { s with varList := s.varList ++ [e] }

/-- Modelled from the spec: `Stack::pop_len` — drain the top `n` values,
bottom of the range first (evaluation order). -/
def Stack.popLen (s : Stack) (n : Nat) : List Expression × Stack :=
  (s.varList.drop (s.varList.length - n),
    { s with varList := s.varList.take (s.varList.length - n) })

/-- Modelled from the spec: `Stack::push_temporary` — a new slot at the
current stack pointer. -/
def Stack.pushTemporary (s : Stack) : Nat × Stack :=
  let var := s.previous + s.varList.length
  (var,
    { s with
        varList := (s.varList ++ [Expression.getTemporary var]),
        capacity := max s.capacity (var + 1) })

/-- Modelled from the spec: `Stack::push_temporaries` — a contiguous range
of `n` new slots. -/
def Stack.pushTemporaries (s : Stack) (n : Nat) : TempRange × Stack :=
  let start := s.previous + s.varList.length
  (⟨start, n⟩,
    { s with
        varList := (s.varList
          ++ (List.range n).map (fun i => Expression.getTemporary (start + i))),
        capacity := max s.capacity (start + n) })

/-- Modelled from the spec: `Stack::split_last num_param num_result` —
pop `num_param` values to form the child's initial stack, remembering the
post-block stack pointer as the child's `previous`; returns
`(child, parent)`. -/
def Stack.splitLast (s : Stack) (numParam : Nat) (_numResult : Nat) :
    Stack × Stack :=
  let keep := s.varList.length - numParam
  (⟨s.varList.drop keep, s.capacity, s.previous + keep⟩,
    { s with varList := s.varList.take keep })

/-- Modelled from the spec: `Stack::get_br_alignment` — the value transfer
between the source's top `result` slots and the target's `result` slots at
`previous`. -/
def Stack.getBrAlignment (s : Stack) (previous : Nat) (result : Nat) :
    Align :=
  ⟨⟨s.previous + s.varList.length - result, result⟩, ⟨previous, result⟩⟩

/-- Modelled from the spec: the worker of `Stack::leak_into` — walk the
pending entries bottom-up (position `i`, slot `prev + i`); an entry that
already is its own slot's temporary, or that the predicate rejects, stays;
any other entry is replaced by its slot's temporary and a
`SetTemporary(slot, old)` statement is emitted, in evaluation order. -/
def leakAux (prev : Nat) (cond : Expression → Bool) :
    Nat → List Expression → List Expression × List Statement
  | _, [] => ([], [])
  | i, e :: rest =>
    let var := prev + i
    match leakAux prev cond (i + 1) rest with
    | (rest2, stmts) =>
      if e = Expression.getTemporary var ∨ cond e = false then
        (e :: rest2, stmts)
      else
        (Expression.getTemporary var :: rest2,
          Statement.setTemporaryS ⟨var, e⟩ :: stmts)

/-- Modelled from the spec: `Stack::leak_into`. -/
def Stack.leakInto (s : Stack) (cond : Expression → Bool) :
    Stack × List Statement :=
  match leakAux s.previous cond 0 s.varList with
  | (vl, stmts) => ({ s with varList := vl }, stmts)

/-- Modelled from the spec: `ReadGet::run` — visit every
`GetLocal`/`GetGlobal`/`LoadAt` leaf of the expression, reporting whether
any matches the corresponding predicate. -/
def readGet (lp : Nat → Bool) (gp : Nat → Bool) (mp : Nat → Bool) :
    Expression → Bool
  | .value _ => false
  | .getLocal v => lp v
  | .getGlobal v => gp v
  | .getTemporary _ => false
  | .loadAt _ mem _ ptr => mp mem || readGet lp gp mp ptr
  | .unOp _ rhs => readGet lp gp mp rhs
  | .binOp _ lhs rhs => readGet lp gp mp lhs || readGet lp gp mp rhs
  | .cmpOp _ lhs rhs => readGet lp gp mp lhs || readGet lp gp mp rhs
  | .select c t e => readGet lp gp mp c || readGet lp gp mp t || readGet lp gp mp e
  | .memorySize _ => false

/-- `factory::BlockData`. -/
inductive BlockData where
  | forward (numResult : Nat)
  | backward (numParam : Nat)
  | ifData (numResult : Nat) (ty : BlockTy)
  | elseData (numResult : Nat)

/-- `impl From<BlockData> for LabelType` (`factory.rs`, lines 35–44):
`Forward`/`If`/`Else` data become forward labels, `Backward` (a lifted
loop) becomes a backward label. -/
def labelTypeOf : BlockData → LabelType
  | .forward _ => LabelType.forward
  | .ifData _ _ => LabelType.forward
  | .elseData _ => LabelType.forward
  | .backward _ => LabelType.backward

/-- `factory::BlockVariant`. -/
inductive BlockVariant where
  | forwardV
  | backwardV
  | ifV
  | elseV

/-- `factory::StatList`. -/
structure StatList where
  stack : Stack
  code : List Statement
  last : Option Terminator
  blockData : BlockData
  hasReference : Bool

/-- `StatList::new` / `Default`. -/
def StatList.new : StatList := ⟨⟨[], 0, 0⟩, [], none, .forward 0, false⟩

/-- `StatList::leak_all`. -/
def StatList.leakAll (s : StatList) : StatList :=
  match s.stack.leakInto (fun _ => true) with
  | (st, stmts) => { s with stack := st, code := s.code ++ stmts }

/-- The predicate of `StatList::leak_pre_call`: an expression observable by
a call — one reading any global or any memory. -/
def preCallCond : Expression → Bool :=
  readGet (fun _ => false) (fun _ => true) (fun _ => true)

/-- `StatList::leak_pre_call`. -/
def StatList.leakPreCall (s : StatList) : StatList :=
  match s.stack.leakInto preCallCond with
  | (st, stmts) => { s with stack := st, code := s.code ++ stmts }

/-- `StatList::leak_local_write`. -/
def StatList.leakLocalWrite (s : StatList) (id : Nat) : StatList :=
  match s.stack.leakInto
      (readGet (fun v => v == id) (fun _ => false) (fun _ => false)) with
  | (st, stmts) => { s with stack := st, code := s.code ++ stmts }

/-- `StatList::leak_global_write`. -/
def StatList.leakGlobalWrite (s : StatList) (id : Nat) : StatList :=
  match s.stack.leakInto
      (readGet (fun _ => false) (fun v => v == id) (fun _ => false)) with
  | (st, stmts) => { s with stack := st, code := s.code ++ stmts }

/-- `StatList::leak_memory_write`. -/
def StatList.leakMemoryWrite (s : StatList) (id : Nat) : StatList :=
  match s.stack.leakInto
      (readGet (fun _ => false) (fun _ => false) (fun v => v == id)) with
  | (st, stmts) => { s with stack := st, code := s.code ++ stmts }

/-- `StatList::push_load`. -/
def StatList.pushLoad (s : StatList) (lt : LoadTy) (arg : MemArg) : StatList :=
  match s.stack.pop with
  | (ptr, st) =>
    { s with stack := st.push (.loadAt lt arg.memory arg.offset ptr) }

/-- `StatList::add_store`: build the statement from the popped value and
pointer, spill the pending readers of that memory, then append it. -/
def StatList.addStore (s : StatList) (ty : StoreTy) (arg : MemArg) : StatList :=
  match s.stack.pop with
  | (value, st1) =>
    match st1.pop with
    | (pointer, st2) =>
      let data := Statement.storeAtS ⟨ty, arg.memory, arg.offset, value, pointer⟩
      let s2 := StatList.leakMemoryWrite { s with stack := st2 } arg.memory
      { s2 with code := s2.code ++ [data] }

/-- `StatList::push_constant`. -/
def StatList.pushConstant (s : StatList) (v : Val) : StatList :=
  { s with stack := s.stack.push (.value v) }

/-- `StatList::push_un_op`. -/
def StatList.pushUnOp (s : StatList) (op : UnOpTy) : StatList :=
  match s.stack.pop with
  | (rhs, st) => { s with stack := st.push (.unOp op rhs) }

/-- `StatList::push_bin_op`. -/
def StatList.pushBinOp (s : StatList) (op : BinOpTy) : StatList :=
  match s.stack.pop with
  | (rhs, st1) =>
    match st1.pop with
    | (lhs, st2) => { s with stack := st2.push (.binOp op lhs rhs) }

/-- `StatList::push_cmp_op`. -/
def StatList.pushCmpOp (s : StatList) (op : CmpOpTy) : StatList :=
  match s.stack.pop with
  | (rhs, st1) =>
    match st1.pop with
    | (lhs, st2) => { s with stack := st2.push (.cmpOp op lhs rhs) }

/-- `StatList::try_add_operation` (with `try_add_equal_zero`): the
`UnOpType`/`BinOpType`/`CmpOpType` conversions live in the missing
`node.rs`; the two representative arithmetic operators of the `Op` model
are handled, every other operator is not a simple operation. -/
def StatList.tryAddOperation (s : StatList) (op : Op) : Option StatList :=
  match op with
  | .i32Add => some (s.pushBinOp .addI32)
  | .i32Eqz => some ((s.pushConstant (.i32 0)).pushCmpOp .eqI32)
  | _ => none

/-- `StatList::set_terminator`: spill the whole pending stack, then set
the terminator. -/
def StatList.setTerminator (s : StatList) (t : Terminator) : StatList :=
  let s1 := s.leakAll
  { s1 with last := some t }

/-- `impl From<StatList> for Block`. -/
def StatList.toBlk (s : StatList) : Blk :=
  Blk.mk (if s.hasReference then some (labelTypeOf s.blockData) else none)
    s.code s.last

/-- `module::TypeInfo` — the type oracle (the module parser is external). -/
structure TypeInfo where
  byFuncIndex : Nat → Nat × Nat
  byTypeIndex : Nat → Nat × Nat
  byBlockType : BlockTy → Nat × Nat

/-- The mutable state of `factory::Factory` (minus the borrowed
`TypeInfo`, which is passed explicitly).  `pending` is in `Vec` order: the
innermost enclosing block last. -/
structure FactoryState where
  pending : List StatList
  target : StatList
  nestedUnreachable : Nat

/-- `Factory::from_type_info`'s initial state. -/
def FactoryState.new : FactoryState := ⟨[], StatList.new, 0⟩

/-- `Factory::start_block`. -/
def startBlock (info : TypeInfo) (f : FactoryState) (ty : BlockTy)
    (variant : BlockVariant) : FactoryState :=
  match info.byBlockType ty with
  | (numParam, numResult) =>
    let old1 := f.target.leakAll
    let (blockData, old2) :=
      match variant with
      | .forwardV => (BlockData.forward numResult, old1)
      | .backwardV => (BlockData.backward numParam, old1)
      | .ifV => (BlockData.ifData numResult ty, old1)
      | .elseV =>
        let st1 := (old1.stack.popLen numResult).2
        let st2 := (st1.pushTemporaries numParam).2
        (BlockData.elseData numResult, { old1 with stack := st2 })
    match old2.stack.splitLast numParam numResult with
    | (childStack, parentStack) =>
      let old3 := { old2 with
        stack := (parentStack.pushTemporaries numResult).2 }
      { pending := f.pending ++ [old3],
        target := { StatList.new with
          blockData := blockData,
          stack := childStack },
        nestedUnreachable := f.nestedUnreachable }

/-- `Factory::end_block`. -/
def endBlock (f : FactoryState) : FactoryState :=
  match f.pending.getLast? with
  | none => f
  | some old =>
    let pending2 := f.pending.dropLast
    let now := f.target
    let target1 := { old with
      stack := { old.stack with capacity := now.stack.capacity } }
    match now.blockData with
    | .forward _ | .backward _ =>
      { pending := pending2,
        target := { target1 with
          code := target1.code ++ [Statement.blockS now.toBlk] },
        nestedUnreachable := f.nestedUnreachable }
    | .ifData _ _ =>
      match target1.stack.pop with
      | (cond, st) =>
        { pending := pending2,
          target := { target1 with
            stack := st,
            code := (target1.code
              ++ [Statement.ifS (IfStat.mk cond now.toBlk none)]) },
          nestedUnreachable := f.nestedUnreachable }
    | .elseData _ =>
      match target1.code.getLast? with
      | some (Statement.ifS (IfStat.mk c tBlk _)) =>
        { pending := pending2,
          target := { target1 with
            code := target1.code.dropLast
              ++ [Statement.ifS (IfStat.mk c tBlk (some now.toBlk))] },
          nestedUnreachable := f.nestedUnreachable }
      | _ =>
        { pending := pending2, target := target1,
          nestedUnreachable := f.nestedUnreachable }

/-- `Factory::start_else` (the target must be an open `If`; the Rust code
declares anything else `unreachable!`). -/
def startElse (info : TypeInfo) (f : FactoryState) : FactoryState :=
  match f.target.blockData with
  | .ifData _ ty =>
    let f1 := { f with target := f.target.leakAll }
    startBlock info (endBlock f1) ty .elseV
  | _ => f

/-- `num_result` (or a backward block's `num_param`) as used by
`Factory::get_br_terminator`. -/
def resultOf : BlockData → Nat
  | .forward n => n
  | .ifData n _ => n
  | .elseData n => n
  | .backward n => n

/-- `Factory::get_br_terminator` (with `get_relative_block`): resolve the
relative depth, mark the target block referenced, and compute the
alignment from the current stack. -/
def getBrTerminator (f : FactoryState) (target : Nat) : Br × FactoryState :=
  if target = 0 then
    let block := f.target
    ({ target := target,
        align := f.target.stack.getBrAlignment block.stack.previous
          (resultOf block.blockData) },
      { f with target := { block with hasReference := true } })
  else
    let idx := f.pending.length - target
    match f.pending.get? idx with
    | some block =>
      ({ target := target,
          align := f.target.stack.getBrAlignment block.stack.previous
            (resultOf block.blockData) },
        { f with
            pending := f.pending.set idx
              { block with hasReference := true } })
    | none =>
      ({ target := target, align := f.target.stack.getBrAlignment 0 0 }, f)

/-- `Factory::add_call`. -/
def addCall (info : TypeInfo) (f : FactoryState) (function : Nat) :
    FactoryState :=
  match info.byFuncIndex function with
  | (numParam, numResult) =>
    match f.target.stack.popLen numParam with
    | (paramList, st1) =>
      let t1 := StatList.leakPreCall { f.target with stack := st1 }
      match t1.stack.pushTemporaries numResult with
      | (resultList, st2) =>
        { f with target := { t1 with
            stack := st2,
            code := (t1.code
              ++ [Statement.callS ⟨function, paramList, resultList⟩]) } }

/-- `Factory::add_call_indirect`. -/
def addCallIndirect (info : TypeInfo) (f : FactoryState) (ty : Nat)
    (table : Nat) : FactoryState :=
  match info.byTypeIndex ty with
  | (numParam, numResult) =>
    match f.target.stack.pop with
    | (index, st0) =>
      match st0.popLen numParam with
      | (paramList, st1) =>
        let t1 := StatList.leakPreCall { f.target with stack := st1 }
        match t1.stack.pushTemporaries numResult with
        | (resultList, st2) =>
          { f with target := { t1 with
              stack := st2,
              code := (t1.code
                ++ [Statement.callIndirectS
                      ⟨table, index, paramList, resultList⟩]) } }

/-- `Factory::drop_unreachable`. -/
def dropUnreachableF (info : TypeInfo) (f : FactoryState) (op : Op) :
    FactoryState :=
  match op with
  | .block _ | .loop _ | .ifOp _ =>
    { f with nestedUnreachable := f.nestedUnreachable + 1 }
  | .elseOp =>
    if f.nestedUnreachable = 1 then
      startElse info { f with nestedUnreachable := 0 }
    else f
  | .endOp =>
    if f.nestedUnreachable = 1 then
      endBlock { f with nestedUnreachable := 0 }
    else { f with nestedUnreachable := f.nestedUnreachable - 1 }
  | _ => f

/-- `Factory::add_instruction`. -/
def addInstruction (info : TypeInfo) (f : FactoryState) (op : Op) :
    FactoryState :=
  match f.target.tryAddOperation op with
  | some t => { f with target := t }
  | none =>
    match op with
    | .unreachable =>
      { f with
          nestedUnreachable := f.nestedUnreachable + 1,
          target := f.target.setTerminator .unreachableT }
    | .nop => f
    | .block ty => startBlock info f ty .forwardV
    | .loop ty => startBlock info f ty .backwardV
    | .ifOp ty =>
      match f.target.stack.pop with
      | (cond, st) =>
        let f1 := startBlock info
          { f with target := { f.target with stack := st } } ty .ifV
        match f1.pending.getLast? with
        | some lastSt =>
          { f1 with
              pending := (f1.pending.dropLast
                ++ [{ lastSt with stack := lastSt.stack.push cond }]) }
        | none => f1
    | .elseOp => startElse info f
    | .endOp => endBlock { f with target := f.target.leakAll }
    | .br depth =>
      match getBrTerminator f depth with
      | (br, f1) =>
        { f1 with
            target := f1.target.setTerminator (.brT br),
            nestedUnreachable := f1.nestedUnreachable + 1 }
    | .brIf depth =>
      match f.target.stack.pop with
      | (cond, st) =>
        match getBrTerminator
            { f with target := { f.target with stack := st } } depth with
        | (br, f1) =>
          let t1 := f1.target.leakAll
          { f1 with
            target := { t1 with
              code := t1.code ++ [Statement.brIfS ⟨cond, br⟩] } }
    | .brTable targets dflt =>
      match f.target.stack.pop with
      | (cond, st) =>
        let f0 := { f with target := { f.target with stack := st } }
        match targets.foldl
            (fun (acc : List Br × FactoryState) t =>
              match getBrTerminator acc.2 t with
              | (br, f2) => (acc.1 ++ [br], f2)) ([], f0) with
        | (data, f1) =>
          match getBrTerminator f1 dflt with
          | (dbr, f2) =>
            { f2 with
              target := f2.target.setTerminator
                (.brTableT ⟨cond, data, dbr⟩),
              nestedUnreachable := f2.nestedUnreachable + 1 }
    | .ret =>
      match getBrTerminator f f.pending.length with
      | (br, f1) =>
        { f1 with
            target := f1.target.setTerminator (.brT br),
            nestedUnreachable := f1.nestedUnreachable + 1 }
    | .call fn => addCall info f fn
    | .callIndirect ty table => addCallIndirect info f ty table
    | .dropOp =>
      { f with target := { f.target with stack := (f.target.stack.pop).2 } }
    | .select =>
      match f.target.stack.pop with
      | (cond, st1) =>
        match st1.pop with
        | (onFalse, st2) =>
          match st2.pop with
          | (onTrue, st3) =>
            { f with target := { f.target with
                stack := st3.push (.select cond onTrue onFalse) } }
    | .localGet i =>
      { f with target := { f.target with
          stack := f.target.stack.push (.getLocal i) } }
    | .localSet i =>
      match f.target.stack.pop with
      | (value, st) =>
        let t1 := StatList.leakLocalWrite { f.target with stack := st } i
        { f with target := { t1 with
            code := t1.code ++ [Statement.setLocalS ⟨i, value⟩] } }
    | .localTee i =>
      match f.target.stack.pop with
      | (value, st) =>
        let t1 := StatList.leakLocalWrite { f.target with stack := st } i
        let t2 := { t1 with stack := t1.stack.push (.getLocal i) }
        { f with target := { t2 with
            code := t2.code ++ [Statement.setLocalS ⟨i, value⟩] } }
    | .globalGet i =>
      { f with target := { f.target with
          stack := f.target.stack.push (.getGlobal i) } }
    | .globalSet i =>
      match f.target.stack.pop with
      | (value, st) =>
        let t1 := StatList.leakGlobalWrite { f.target with stack := st } i
        { f with target := { t1 with
            code := t1.code ++ [Statement.setGlobalS ⟨i, value⟩] } }
    | .load lt arg => { f with target := f.target.pushLoad lt arg }
    | .store ty arg => { f with target := f.target.addStore ty arg }
    | .memorySize mem =>
      { f with target := { f.target with
          stack := f.target.stack.push (.memorySize mem) } }
    | .memoryGrow mem =>
      match f.target.stack.pop with
      | (size, st1) =>
        match st1.pushTemporary with
        | (result, st2) =>
          let t1 := StatList.leakMemoryWrite
            { f.target with stack := st2 } mem
          { f with target := { t1 with
              code := t1.code
                ++ [Statement.memoryGrowS ⟨mem, result, size⟩] } }
    | .memoryCopy dst src =>
      match f.target.stack.pop with
      | (size, st1) =>
        match st1.pop with
        | (srcPtr, st2) =>
          match st2.pop with
          | (dstPtr, st3) =>
            let t1 := StatList.leakMemoryWrite
              { f.target with stack := st3 } src
            let t2 := StatList.leakMemoryWrite t1 dst
            { f with target := { t2 with
                code := t2.code
                  ++ [Statement.memoryCopyS
                        ⟨⟨dst, dstPtr⟩, ⟨src, srcPtr⟩, size⟩] } }
    | .memoryFill mem =>
      match f.target.stack.pop with
      | (size, st1) =>
        match st1.pop with
        | (value, st2) =>
          match st2.pop with
          | (dstPtr, st3) =>
            let t1 := StatList.leakMemoryWrite
              { f.target with stack := st3 } mem
            { f with target := { t1 with
                code := t1.code
                  ++ [Statement.memoryFillS ⟨⟨mem, dstPtr⟩, size, value⟩] } }
    | .i32Const v => { f with target := f.target.pushConstant (.i32 v) }
    | .i64Const v => { f with target := f.target.pushConstant (.i64 v) }
    | .f32Const bits =>
      { f with target := f.target.pushConstant (.f32Bits bits) }
    | .f64Const bits =>
      { f with target := f.target.pushConstant (.f64Bits bits) }
    | .i32Add => f
    | .i32Eqz => f

/-- `usize::MAX`. -/
def usizeMax : Nat := 2 ^ 64 - 1

/-- `list.len() - 1` in wrapping `usize` arithmetic (release mode; a debug
build would abort on the empty list). -/
def interpretedCount (n : Nat) : Nat := (n + usizeMax) % 2 ^ 64

/-- The prefix of the operator list `Factory::build_stat_list` actually
interprets: `list.iter().take(list.len() - 1)`. -/
def interpretedOps (l : List Op) : List Op := l.take (interpretedCount l.length)

/-- The dispatch loop of `Factory::build_stat_list`. -/
def runOps (info : TypeInfo) (f : FactoryState) (ops : List Op) :
    FactoryState :=
  ops.foldl
    (fun f2 op =>
      if f2.nestedUnreachable = 0 then addInstruction info f2 op
      else dropUnreachableF info f2 op) f

/-- `Factory::build_stat_list` running over a given operator prefix. -/
def buildStatListOn (info : TypeInfo) (f : FactoryState) (ops : List Op)
    (numResult : Nat) : StatList :=
  let f0 := { f with
    target := { f.target with blockData := .forward numResult },
    nestedUnreachable := 0 }
  let f1 := runOps info f0 ops
  if f1.nestedUnreachable = 0 then f1.target.leakAll else f1.target

/-- `Factory::build_stat_list` (`factory.rs`, lines 651–668). -/
def buildStatList (info : TypeInfo) (f : FactoryState) (list : List Op)
    (numResult : Nat) : StatList :=
  buildStatListOn info f (interpretedOps list) numResult

/-- `node::FuncData`. -/
structure FuncData where
  localData : List ValTy
  numResult : Nat
  numParam : Nat
  numStack : Nat
  code : Blk

/-- `Factory::create_anonymous`. -/
def createAnonymous (info : TypeInfo) (f : FactoryState) (list : List Op) :
    FuncData :=
  let data := buildStatList info f list 1
  ⟨[], 1, 0, data.stack.capacity, data.toBlk⟩

/-- The spill hazards of the claimed spill-soundness invariant. -/
inductive Hazard where
  | localH (i : Nat)
  | globalH (i : Nat)
  | memoryH (i : Nat)

/-- "Expression reads hazard `X`", decided by the `ReadGet` traversal. -/
def readsHazard (x : Hazard) (e : Expression) : Bool :=
  match x with
  | .localH i => readGet (fun v => v == i) (fun _ => false) (fun _ => false) e
  | .globalH i => readGet (fun _ => false) (fun v => v == i) (fun _ => false) e
  | .memoryH i => readGet (fun _ => false) (fun _ => false) (fun v => v == i) e

/-- The operators whose processing appends a statement writing hazard `X`
(`LocalSet`/`LocalTee` write the local, `GlobalSet` the global,
stores/`MemoryGrow`/`MemoryCopy`/`MemoryFill` the memory). -/
def opWritesHazard : Op → Hazard → Bool
  | .localSet j, .localH i => j == i
  | .localTee j, .localH i => j == i
  | .globalSet j, .globalH i => j == i
  | .store _ arg, .memoryH i => arg.memory == i
  | .memoryGrow m, .memoryH i => m == i
  | .memoryCopy d s, .memoryH i => d == i || s == i
  | .memoryFill m, .memoryH i => m == i
  | _, _ => false

/-- "Statement writes hazard `X`" for the appended writer statements. -/
def stmtWritesHazard : Statement → Hazard → Bool
  | .setLocalS s, .localH i => s.var == i
  | .setGlobalS s, .globalH i => s.var == i
  | .storeAtS s, .memoryH i => s.memory == i
  | .memoryGrowS s, .memoryH i => s.memory == i
  | .memoryCopyS s, .memoryH i =>
    s.destination.memory == i || s.source.memory == i
  | .memoryFillS s, .memoryH i => s.destination.memory == i
  | _, _ => false

end Factory

-- ======================================================================
-- THEOREMS
-- ======================================================================


namespace DeadCodeElimination

theorem isTerm_of_isBlockStart {op : Op} (h : isBlockStart op = true) :
    isTerm op = false := by
  cases op <;> simp_all [isBlockStart, isTerm]

theorem isTerm_endOp : isTerm Op.endOp = false := rfl

theorem isTerm_elseOp : isTerm Op.elseOp = false := rfl

theorem balancedFrom_start {op : Op} (h : isBlockStart op = true)
    (d : Nat) (l : List Op) :
    balancedFrom d (op :: l) = balancedFrom (d + 1) l := by
  cases op <;> simp_all [isBlockStart, balancedFrom]

theorem balancedFrom_endOp (d : Nat) (l : List Op) :
    balancedFrom d (Op.endOp :: l) = (d != 0 && balancedFrom (d - 1) l) := rfl

theorem balancedFrom_other (op : Op) (hs : isBlockStart op = false)
    (he : op ≠ Op.endOp) (d : Nat) (l : List Op) :
    balancedFrom d (op :: l) = balancedFrom d l := by
  cases op <;> simp_all [isBlockStart, balancedFrom]

theorem dropStep_start {op : Op} (h : isBlockStart op = true) (n : Nat) :
    dropStep n op = n + 1 := by
  cases op <;> simp_all [isBlockStart, dropStep]

theorem dropStep_other {op : Op} (hs : isBlockStart op = false)
    (he : op ≠ Op.endOp) (hel : op ≠ Op.elseOp) (n : Nat) :
    dropStep n op = n := by
  cases op <;> simp_all [isBlockStart, dropStep]

theorem runTracking_length_le : ∀ (n : Nat) (l : List Op),
    (runTracking n l).length ≤ l.length := by
  intro n l
  induction l generalizing n with
  | nil => simp [runTracking]
  | cons op rest ih =>
    match n with
    | 0 => simpa [runTracking] using ih _
    | n + 1 =>
      simp only [runTracking]
      split
      · simpa using ih 0
      · exact Nat.le_succ_of_le (ih _)

theorem runTracking_balanced : ∀ (l : List Op) (n dI dO : Nat),
    (n = 0 → dI = dO) → (1 ≤ n → dI + 1 = dO + n) →
    balancedFrom dI l = true → balancedFrom dO (runTracking n l) = true := by
  intro l
  induction l with
  | nil =>
    intro n dI dO h0 h1 hb
    simp only [balancedFrom, beq_iff_eq] at hb
    subst hb
    match n with
    | 0 => simp [runTracking, balancedFrom, (h0 rfl).symm]
    | n + 1 =>
      have := h1 (by omega)
      simp only [runTracking, balancedFrom, beq_iff_eq]
      omega
  | cons op rest ih =>
    intro n dI dO h0 h1 hb
    match n with
    | 0 =>
      have hd : dI = dO := h0 rfl
      subst hd
      simp only [runTracking]
      by_cases hs : isBlockStart op = true
      · rw [balancedFrom_start hs] at hb
        rw [isTerm_of_isBlockStart hs, if_neg (by simp),
          balancedFrom_start hs]
        exact ih 0 (dI + 1) (dI + 1) (fun _ => rfl) (by omega) hb
      · by_cases he : op = Op.endOp
        · subst he
          rw [balancedFrom_endOp, Bool.and_eq_true] at hb
          rw [isTerm_endOp, if_neg (by simp), balancedFrom_endOp,
            Bool.and_eq_true]
          exact ⟨hb.1, ih 0 (dI - 1) (dI - 1) (fun _ => rfl) (by omega) hb.2⟩
        · rw [balancedFrom_other op (by simpa using hs) he] at hb
          rw [balancedFrom_other op (by simpa using hs) he]
          by_cases ht : isTerm op = true
          · rw [if_pos ht]
            exact ih 1 dI dI (by omega) (fun _ => rfl) hb
          · rw [if_neg ht]
            exact ih 0 dI dI (fun _ => rfl) (by omega) hb
    | n + 1 =>
      have hrel : dI + 1 = dO + (n + 1) := h1 (by omega)
      simp only [runTracking]
      by_cases hs : isBlockStart op = true
      · rw [balancedFrom_start hs] at hb
        rw [dropStep_start hs, if_neg (by omega)]
        exact ih (n + 2) (dI + 1) dO (by omega) (by omega) hb
      · by_cases he : op = Op.endOp
        · subst he
          rw [balancedFrom_endOp, Bool.and_eq_true, bne_iff_ne] at hb
          have hstep : dropStep (n + 1) Op.endOp = n := rfl
          rw [hstep]
          match n with
          | 0 =>
            have hd : dI = dO := by omega
            subst hd
            rw [if_pos rfl, balancedFrom_endOp, Bool.and_eq_true, bne_iff_ne]
            exact ⟨hb.1, ih 0 (dI - 1) (dI - 1) (fun _ => rfl) (by omega) hb.2⟩
          | k + 1 =>
            rw [if_neg (by omega : ¬ (k + 1 = 0))]
            exact ih (k + 1) (dI - 1) dO (by omega) (by omega) hb.2
        · by_cases hel : op = Op.elseOp
          · subst hel
            rw [balancedFrom_other Op.elseOp rfl (by simp)] at hb
            have hstep : dropStep (n + 1) Op.elseOp
                = if n + 1 = 1 then 0 else n + 1 := rfl
            rw [hstep]
            match n with
            | 0 =>
              have h1 : (if 0 + 1 = 1 then 0 else 0 + 1) = 0 := rfl
              rw [h1, if_pos rfl, balancedFrom_other Op.elseOp rfl (by simp)]
              have hd : dI = dO := by omega
              subst hd
              exact ih 0 dI dI (fun _ => rfl) (by omega) hb
            | k + 1 =>
              rw [if_neg (by omega : ¬ (k + 1 + 1 = 1)),
                if_neg (by omega : ¬ (k + 1 + 1 = 0))]
              exact ih (k + 2) dI dO (by omega) (by omega) hb
          · rw [balancedFrom_other op (by simpa using hs) he] at hb
            rw [dropStep_other (by simpa using hs) he hel,
              if_neg (by omega)]
            exact ih (n + 1) dI dO (by omega) (by omega) hb

end DeadCodeElimination

namespace DeadCodeElimination

theorem dropStep_eq_zero {n : Nat} {op : Op} (hn : 1 ≤ n)
    (h : dropStep n op = 0) : n = 1 ∧ dropStep 1 op = 0 := by
  cases op <;> simp_all [dropStep] <;> omega

theorem runTracking_idem (l : List Op) :
    runTracking 0 (runTracking 0 l) = runTracking 0 l ∧
    ∀ n, 1 ≤ n → runTracking 1 (runTracking n l) = runTracking n l := by
  induction l with
  | nil =>
    refine ⟨rfl, fun n hn => ?_⟩
    match n with
    | n + 1 => rfl
  | cons op rest ih =>
    have hE0 : ∀ M, runTracking 0 (op :: M)
        = op :: runTracking (if isTerm op then 1 else 0) M := fun _ => rfl
    constructor
    · rw [hE0 rest]
      by_cases ht : isTerm op = true
      · rw [if_pos ht, hE0, if_pos ht, ih.2 1 (by omega)]
      · rw [if_neg ht, hE0, if_neg ht, ih.1]
    · intro n hn
      match n with
      | n + 1 =>
        have hE : runTracking (n + 1) (op :: rest)
            = if dropStep (n + 1) op = 0 then op :: runTracking 0 rest
              else runTracking (dropStep (n + 1) op) rest := rfl
        rw [hE]
        by_cases hm : dropStep (n + 1) op = 0
        · rw [if_pos hm]
          obtain ⟨hn1, h1⟩ := dropStep_eq_zero (by omega) hm
          have hE2 : runTracking 1 (op :: runTracking 0 rest)
              = if dropStep 1 op = 0
                then op :: runTracking 0 (runTracking 0 rest)
                else runTracking (dropStep 1 op) (runTracking 0 rest) := rfl
          rw [hE2, if_pos h1, ih.1]
        · rw [if_neg hm]
          exact ih.2 (dropStep (n + 1) op) (by omega)

/-- C8: dead-code elimination is idempotent — for every operator list `L`
(balanced or not), `DeadCodeElimination::run (DeadCodeElimination::run L) =
DeadCodeElimination::run L`; the second application is a no-op. -/
theorem dce_idempotent (l : List Op) : run (run l) = run l :=
  (runTracking_idem l).1

/-- C3 (counterexample): on the operator list `[Nop]` — which is balanced —
`DeadCodeElimination::run` returns the list unchanged, so the output is not
strictly shorter than the input. -/
theorem dce_not_strictly_shorter :
    ¬ ((run [Op.nop]).length < ([Op.nop] : List Op).length) := by
  decide

/-- C3 (amended): for every operator list, the output of
`DeadCodeElimination::run` is at most as long as the input (strictly
shorter exactly when some operator is dropped), and if the input is
structurally balanced then so is the output. -/
theorem dce_output_no_longer_and_balanced (l : List Op) :
    (run l).length ≤ l.length ∧
    (balancedFrom 0 l = true → balancedFrom 0 (run l) = true) :=
  ⟨runTracking_length_le 0 l,
    fun h => runTracking_balanced l 0 0 0 (fun _ => rfl) (by omega) h⟩

/-- Witness for `dce_output_no_longer_and_balanced` at the balanced list
`[Block, Br 0, Nop, End]`: the hypothesis of its second component holds and
the pass keeps the output balanced (it drops the dead `Nop`). -/
theorem dce_output_no_longer_and_balanced_witness :
    balancedFrom 0 [Op.block .empty, Op.br 0, Op.nop, Op.endOp] = true ∧
    (run [Op.block .empty, Op.br 0, Op.nop, Op.endOp]).length ≤ 4 ∧
    balancedFrom 0 (run [Op.block .empty, Op.br 0, Op.nop, Op.endOp]) = true :=
  ⟨by decide,
    (dce_output_no_longer_and_balanced [Op.block .empty, Op.br 0, Op.nop, Op.endOp]).1,
    (dce_output_no_longer_and_balanced [Op.block .empty, Op.br 0, Op.nop, Op.endOp]).2
      (by decide)⟩

end DeadCodeElimination

namespace RWAnnot

theorem idxFrom_append (a : List Op) : ∀ (i : Nat) (b : List Op),
    idxFrom i (a ++ b) = idxFrom i a ++ idxFrom (i + a.length) b := by
  induction a with
  | nil => intro i b; simp [idxFrom]
  | cons op rest ih =>
    intro i b
    simp only [List.cons_append, idxFrom, List.length_cons, List.append_eq]
    rw [ih (i + 1) b]
    have h2 : i + 1 + rest.length = i + (rest.length + 1) := by omega
    rw [h2]

theorem idxFrom_length : ∀ (l : List Op) (i : Nat),
    (idxFrom i l).length = l.length := by
  intro l
  induction l with
  | nil => intro i; rfl
  | cons op rest ih => intro i; simp [idxFrom, ih]

theorem mem_idxFrom : ∀ (l : List Op) (i : Nat) (p : Nat × Op),
    p ∈ idxFrom i l → i ≤ p.1 ∧ p.1 < i + l.length := by
  intro l
  induction l with
  | nil => intro i p h; simp [idxFrom] at h
  | cons op rest ih =>
    intro i p h
    simp only [idxFrom, List.mem_cons] at h
    rcases h with h | h
    · subst h; simp
    · have := ih (i + 1) p h
      simp only [List.length_cons]
      omega

theorem scanRev_append (s : RWState) (a b : List (Nat × Op)) :
    scanRev s (a ++ b) = scanRev (scanRev s a) b :=
  List.foldl_append rwStep s a b

theorem scanRev_single (s : RWState) (p : Nat × Op) :
    scanRev s [p] = rwStep s p := rfl

theorem rwStep_leaf {op : Op} (h : isBoundary op = false)
    (s : RWState) (j : Nat) : rwStep s (j, op) = trackLeaf op s := by
  cases op <;> simp_all [isBoundary, rwStep]

theorem handleBlock_map_ne (key : Nat) (s : RWState) (k : Nat)
    (h : key ≠ k) : (handleBlock key s).resultMap k = s.resultMap k := by
  obtain ⟨bs, ps, m⟩ := s
  unfold handleBlock
  cases ps <;> cases bs <;> simp [insertResult, Ne.symm h]

theorem handleIf_map_ne (key : Nat) (s : RWState) (k : Nat)
    (h : key ≠ k) : (handleIf key s).resultMap k = s.resultMap k := by
  obtain ⟨bs, ps, m⟩ := s
  unfold handleIf
  cases ps with
  | nil => cases bs <;> rfl
  | cons p ps2 =>
    cases bs with
    | nil => rfl
    | cons b bs2 =>
      cases b
      · simp [insertResult, Ne.symm h]
      · cases ps2
        · rfl
        · simp [insertResult, Ne.symm h]

theorem handleElse_map (s : RWState) :
    (handleElse s).resultMap = s.resultMap := by
  obtain ⟨bs, ps, m⟩ := s
  unfold handleElse
  cases bs <;> rfl

theorem handleEnd_map (s : RWState) :
    (handleEnd s).resultMap = s.resultMap := rfl

theorem trackLeaf_map (op : Op) (s : RWState) :
    (trackLeaf op s).resultMap = s.resultMap := by
  obtain ⟨bs, ps, m⟩ := s
  unfold trackLeaf
  cases ps <;> rfl

theorem rwStep_map_ne (s : RWState) (j : Nat) (op : Op) (k : Nat)
    (h : j ≠ k) : (rwStep s (j, op)).resultMap k = s.resultMap k := by
  cases op <;>
    simp [rwStep, handleBlock_map_ne j s k h, handleIf_map_ne j s k h,
      handleElse_map, handleEnd_map, trackLeaf_map]

theorem scanRev_map_outside : ∀ (l : List (Nat × Op)) (s : RWState) (k : Nat),
    (∀ p ∈ l, p.1 ≠ k) → (scanRev s l).resultMap k = s.resultMap k := by
  intro l
  induction l with
  | nil => intro s k _; rfl
  | cons p rest ih =>
    intro s k h
    have h1 : p.1 ≠ k := h p (by simp)
    have hstep : (rwStep s p).resultMap k = s.resultMap k := by
      obtain ⟨j, op⟩ := p
      exact rwStep_map_ne s j op k h1
    calc (scanRev s (p :: rest)).resultMap k
        = (scanRev (rwStep s p) rest).resultMap k := rfl
      _ = (rwStep s p).resultMap k := ih _ k (fun q hq => h q (by simp [hq]))
      _ = s.resultMap k := hstep

end RWAnnot

namespace RWAnnot

theorem rev_idx_cons (i : Nat) (op : Op) (l : List Op) :
    (idxFrom i (op :: l)).reverse
      = (idxFrom (i + 1) l).reverse ++ [(i, op)] := by
  simp [idxFrom]

theorem rev_idx_append (i : Nat) (x y : List Op) :
    (idxFrom i (x ++ y)).reverse
      = (idxFrom (i + x.length) y).reverse ++ (idxFrom i x).reverse := by
  rw [idxFrom_append, List.reverse_append]

/-- Frame lemma: scanning the flattening of a well-formed structured
sequence from any state whose pending stack is `L :: ps` leaves the branch
stack and the lower pending labels untouched and linear-merges exactly the
top-level leaf operators into `L`; nested regions only record entries into
the result map. -/
theorem scan_flat (c : WCode) : WFc c = true →
    ∀ (i : Nat) (bs : List Bool) (L : RWLabel) (ps : List RWLabel)
      (m : Nat → Option RWLabel),
    ∃ m2, scanRev ⟨bs, L :: ps, m⟩ ((idxFrom i (flat c)).reverse)
        = ⟨bs, mergeCode L c :: ps, m2⟩ := by
  induction c with
  | nilC =>
    intro _ i bs L ps m
    exact ⟨m, rfl⟩
  | leafC op rest ihR =>
    intro hw i bs L ps m
    simp only [WFc, Bool.and_eq_true, Bool.not_eq_true'] at hw
    obtain ⟨m1, h1⟩ := ihR hw.2 (i + 1) bs L ps m
    refine ⟨m1, ?_⟩
    rw [flat, rev_idx_cons, scanRev_append, h1, scanRev_single,
      rwStep_leaf hw.1]
    rfl
  | blockC ty inner rest ihI ihR =>
    intro hw i bs L ps m
    simp only [WFc, Bool.and_eq_true] at hw
    obtain ⟨m1, h1⟩ :=
      ihR hw.2 (i + 1 + (flat inner).length + 1) bs L ps m
    obtain ⟨m2, h2⟩ :=
      ihI hw.1 (i + 1) (false :: bs) ⟨∅, ∅⟩ (mergeCode L rest :: ps) m1
    refine ⟨insertResult m2 i (mergeCode ⟨∅, ∅⟩ inner), ?_⟩
    rw [flat, rev_idx_cons, rev_idx_append, rev_idx_cons]
    rw [scanRev_append, scanRev_append, scanRev_append, scanRev_single,
      scanRev_single, h1]
    have hEnd : rwStep ⟨bs, mergeCode L rest :: ps, m1⟩
        (i + 1 + (flat inner).length, Op.endOp)
        = ⟨false :: bs, ⟨∅, ∅⟩ :: mergeCode L rest :: ps, m1⟩ := rfl
    rw [hEnd, h2]
    rfl
  | loopC ty inner rest ihI ihR =>
    intro hw i bs L ps m
    simp only [WFc, Bool.and_eq_true] at hw
    obtain ⟨m1, h1⟩ :=
      ihR hw.2 (i + 1 + (flat inner).length + 1) bs L ps m
    obtain ⟨m2, h2⟩ :=
      ihI hw.1 (i + 1) (false :: bs) ⟨∅, ∅⟩ (mergeCode L rest :: ps) m1
    refine ⟨insertResult m2 i (mergeCode ⟨∅, ∅⟩ inner), ?_⟩
    rw [flat, rev_idx_cons, rev_idx_append, rev_idx_cons]
    rw [scanRev_append, scanRev_append, scanRev_append, scanRev_single,
      scanRev_single, h1]
    have hEnd : rwStep ⟨bs, mergeCode L rest :: ps, m1⟩
        (i + 1 + (flat inner).length, Op.endOp)
        = ⟨false :: bs, ⟨∅, ∅⟩ :: mergeCode L rest :: ps, m1⟩ := rfl
    rw [hEnd, h2]
    rfl
  | if1C ty arm rest ihA ihR =>
    intro hw i bs L ps m
    simp only [WFc, Bool.and_eq_true] at hw
    obtain ⟨m1, h1⟩ :=
      ihR hw.2 (i + 1 + (flat arm).length + 1) bs L ps m
    obtain ⟨m2, h2⟩ :=
      ihA hw.1 (i + 1) (false :: bs) ⟨∅, ∅⟩ (mergeCode L rest :: ps) m1
    refine ⟨insertResult m2 i (mergeCode ⟨∅, ∅⟩ arm), ?_⟩
    rw [flat, rev_idx_cons, rev_idx_append, rev_idx_cons]
    rw [scanRev_append, scanRev_append, scanRev_append, scanRev_single,
      scanRev_single, h1]
    have hEnd : rwStep ⟨bs, mergeCode L rest :: ps, m1⟩
        (i + 1 + (flat arm).length, Op.endOp)
        = ⟨false :: bs, ⟨∅, ∅⟩ :: mergeCode L rest :: ps, m1⟩ := rfl
    rw [hEnd, h2]
    rfl
  | if2C ty thenArm elseArm rest ihT ihE ihR =>
    intro hw i bs L ps m
    simp only [WFc, Bool.and_eq_true] at hw
    obtain ⟨⟨hwT, hwE⟩, hwR⟩ := hw
    obtain ⟨m1, h1⟩ :=
      ihR hwR
        (i + 1 + (flat thenArm).length + 1 + (flat elseArm).length + 1)
        bs L ps m
    obtain ⟨m2, h2⟩ :=
      ihE hwE (i + 1 + (flat thenArm).length + 1) (false :: bs) ⟨∅, ∅⟩
        (mergeCode L rest :: ps) m1
    obtain ⟨m3, h3⟩ :=
      ihT hwT (i + 1) (true :: bs) ⟨∅, ∅⟩
        (mergeCode ⟨∅, ∅⟩ elseArm :: mergeCode L rest :: ps) m2
    refine ⟨insertResult m3 i
      ((mergeCode ⟨∅, ∅⟩ thenArm).branchMerge (mergeCode ⟨∅, ∅⟩ elseArm)), ?_⟩
    rw [flat, rev_idx_cons, rev_idx_append, rev_idx_cons, rev_idx_append,
      rev_idx_cons]
    rw [scanRev_append, scanRev_append, scanRev_append, scanRev_append,
      scanRev_append, scanRev_single, scanRev_single, scanRev_single, h1]
    have hEnd : rwStep ⟨bs, mergeCode L rest :: ps, m1⟩
        (i + 1 + (flat thenArm).length + 1 + (flat elseArm).length, Op.endOp)
        = ⟨false :: bs, ⟨∅, ∅⟩ :: mergeCode L rest :: ps, m1⟩ := rfl
    rw [hEnd, h2]
    have hElse : rwStep
        ⟨false :: bs,
          mergeCode ⟨∅, ∅⟩ elseArm :: mergeCode L rest :: ps, m2⟩
        (i + 1 + (flat thenArm).length, Op.elseOp)
        = ⟨true :: bs,
            ⟨∅, ∅⟩ :: mergeCode ⟨∅, ∅⟩ elseArm :: mergeCode L rest :: ps,
            m2⟩ := rfl
    rw [hElse, h3]
    rfl

end RWAnnot

namespace RWAnnot

theorem addLastLabel_map_ne (s : RWState) (k : Nat) (h : k ≠ sentinelKey) :
    (addLastLabel s).resultMap k = s.resultMap k := by
  obtain ⟨bs, ps, m⟩ := s
  unfold addLastLabel
  cases ps <;> simp [insertResult, h]

/-- Scanning a complete `If … Else … End` region (in reverse, from any
state): the state is restored and the result map records the branch-merge
of the two arm labels at the `If`'s index. -/
theorem scan_if2_region (ty : BlockTy) (a b : WCode)
    (ha : WFc a = true) (hb : WFc b = true) (i : Nat) (s : RWState) :
    ∃ m2,
      scanRev s ((idxFrom i
          (Op.ifOp ty :: (flat a ++ (Op.elseOp :: (flat b ++ [Op.endOp]))))).reverse)
        = ⟨s.branchStack, s.pendingStack, m2⟩
      ∧ m2 i = some ((labelOf a).branchMerge (labelOf b)) := by
  obtain ⟨bs, ps, m⟩ := s
  obtain ⟨mB, hB⟩ :=
    scan_flat b hb (i + 1 + (flat a).length + 1) (false :: bs) ⟨∅, ∅⟩ ps m
  obtain ⟨mA, hA⟩ :=
    scan_flat a ha (i + 1) (true :: bs) ⟨∅, ∅⟩
      (mergeCode ⟨∅, ∅⟩ b :: ps) mB
  refine ⟨insertResult mA i
      ((mergeCode ⟨∅, ∅⟩ a).branchMerge (mergeCode ⟨∅, ∅⟩ b)), ?_, ?_⟩
  · rw [rev_idx_cons, rev_idx_append, rev_idx_cons, rev_idx_append]
    have hsing : (idxFrom (i + 1 + (flat a).length + 1 + (flat b).length)
        [Op.endOp]).reverse
        = [(i + 1 + (flat a).length + 1 + (flat b).length, Op.endOp)] := rfl
    rw [hsing]
    rw [scanRev_append, scanRev_append, scanRev_append, scanRev_append,
      scanRev_single, scanRev_single, scanRev_single]
    have hEnd : rwStep ⟨bs, ps, m⟩
        (i + 1 + (flat a).length + 1 + (flat b).length, Op.endOp)
        = ⟨false :: bs, ⟨∅, ∅⟩ :: ps, m⟩ := rfl
    rw [hEnd, hB]
    have hElse : rwStep ⟨false :: bs, mergeCode ⟨∅, ∅⟩ b :: ps, mB⟩
        (i + 1 + (flat a).length, Op.elseOp)
        = ⟨true :: bs, ⟨∅, ∅⟩ :: mergeCode ⟨∅, ∅⟩ b :: ps, mB⟩ := rfl
    rw [hElse, hA]
    rfl
  · simp [insertResult, labelOf]

/-- C2 (amended): for every balanced operator sequence containing an `If` at
index `k` with both arms, the `ReadWriteLabel` recorded at key `k` by
`ReadWriteAnnotation::run` has
`write_set = write_set(then-arm) ∩ write_set(else-arm)` and
`read_set = read_set(then-arm) ∪ read_set(else-arm)`; the reads of the
condition are not part of the recorded label (the condition is evaluated by
operators preceding the `If`, whose reads are attributed to the enclosing
block).  Arm labels are the labels the pass itself computes for the arms:
top-level leaf operators folded by `linear_merge` (nested regions record
separately and do not propagate into the arm label). -/
theorem rw_annotation_if_branch_merge (pre post : List Op) (ty : BlockTy)
    (a b : WCode) (ha : WFc a = true) (hb : WFc b = true)
    (hk : pre.length < sentinelKey) :
    run (pre ++ (Op.ifOp ty ::
        (flat a ++ (Op.elseOp :: (flat b ++ (Op.endOp :: post))))))
      pre.length
      = some ⟨(labelOf a).readSet ∪ (labelOf b).readSet,
          (labelOf a).writeSet ∩ (labelOf b).writeSet⟩ := by
  have hsplit : Op.ifOp ty ::
      (flat a ++ (Op.elseOp :: (flat b ++ (Op.endOp :: post))))
      = (Op.ifOp ty :: (flat a ++ (Op.elseOp :: (flat b ++ [Op.endOp]))))
        ++ post := by
    simp [List.append_assoc]
  rw [hsplit, run]
  rw [idxFrom_append, List.reverse_append, Nat.zero_add]
  rw [idxFrom_append, List.reverse_append]
  rw [scanRev_append, scanRev_append]
  rcases hs1 : scanRev ⟨[], [], fun _ => none⟩
      ((idxFrom (pre.length +
        (Op.ifOp ty :: (flat a ++ (Op.elseOp :: (flat b ++ [Op.endOp])))).length)
        post).reverse)
    with ⟨bs1, ps1, m1⟩
  obtain ⟨m2, hreg, hval⟩ :=
    scan_if2_region ty a b ha hb pre.length ⟨bs1, ps1, m1⟩
  rw [hreg]
  have hpre : (scanRev ⟨bs1, ps1, m2⟩
      ((idxFrom 0 pre).reverse)).resultMap pre.length = m2 pre.length := by
    apply scanRev_map_outside
    intro p hp
    have hmem := mem_idxFrom pre 0 p (List.mem_reverse.mp hp)
    omega
  rw [addLastLabel_map_ne _ _ (by omega), hpre, hval]
  rfl

/-- Witness for `rw_annotation_if_branch_merge` at the function body
`if; local.set 3; else; local.get 3; end; end` (condition supplied by the
enclosing stack): the hypotheses are discharged by computation. -/
theorem rw_annotation_if_branch_merge_witness :
    WFc (.leafC (Op.localSet 3) .nilC) = true ∧
    WFc (.leafC (Op.localGet 3) .nilC) = true ∧
    ([] : List Op).length < sentinelKey ∧
    run ([] ++ (Op.ifOp .empty ::
        (flat (.leafC (Op.localSet 3) .nilC) ++ (Op.elseOp ::
          (flat (.leafC (Op.localGet 3) .nilC) ++ (Op.endOp :: [Op.endOp]))))))
      ([] : List Op).length
      = some ⟨(labelOf (.leafC (Op.localSet 3) .nilC)).readSet ∪
            (labelOf (.leafC (Op.localGet 3) .nilC)).readSet,
          (labelOf (.leafC (Op.localSet 3) .nilC)).writeSet ∩
            (labelOf (.leafC (Op.localGet 3) .nilC)).writeSet⟩ :=
  ⟨by decide, by decide, by decide,
    rw_annotation_if_branch_merge [] [Op.endOp] .empty
      (.leafC (Op.localSet 3) .nilC) (.leafC (Op.localGet 3) .nilC)
      (by decide) (by decide) (by decide)⟩

/-- C2 (counterexample): in the function body
`local.get 0; if; else; end; end` the condition of the `If` at index 1 is
produced by `local.get 0`, but the label recorded at key 1 by
`ReadWriteAnnotation::run` is empty: its read set does not include the
condition's read of local 0, so
`read_set(If) = read_set(cond) ∪ read_set(then) ∪ read_set(else)` fails
(both arms are empty, and the right-hand side is `{local 0}`). -/
theorem rw_annotation_cond_read_not_recorded :
    run [Op.localGet 0, Op.ifOp .empty, Op.elseOp, Op.endOp, Op.endOp] 1
      = some ⟨∅, ∅⟩ ∧
    (∅ : Finset Var) ≠
      (opLabel (Op.localGet 0)).readSet ∪ ∅ ∪ ∅ := by
  constructor
  · decide
  · decide

end RWAnnot

namespace RegionIR

theorem mem_foldl_markNodeAt (l : List Nat) : ∀ (s : MarkState) (a : Nat),
    a ∈ (l.foldl markNodeAt s).nodesVisited
      ↔ a ∈ s.nodesVisited ∨ a ∈ l := by
  induction l with
  | nil => intro s a; simp
  | cons x xs ih =>
    intro s a
    simp only [List.foldl_cons]
    by_cases hv : x ∈ s.nodesVisited
    · rw [show markNodeAt s x = s from by simp [markNodeAt, hv], ih]
      simp only [List.mem_cons]
      constructor
      · rintro (h | h)
        · exact Or.inl h
        · exact Or.inr (Or.inr h)
      · rintro (h | h | h)
        · exact Or.inl h
        · subst h; exact Or.inl hv
        · exact Or.inr h
    · rw [show markNodeAt s x = ⟨insert x s.nodesVisited, x :: s.nodesPending⟩
          from by simp [markNodeAt, hv], ih]
      simp only [Finset.mem_insert, List.mem_cons]
      tauto

theorem pending_mono_foldl (l : List Nat) : ∀ (s : MarkState) (a : Nat),
    a ∈ s.nodesPending → a ∈ (l.foldl markNodeAt s).nodesPending := by
  induction l with
  | nil => intro s a h; exact h
  | cons x xs ih =>
    intro s a h
    simp only [List.foldl_cons]
    by_cases hv : x ∈ s.nodesVisited
    · rw [show markNodeAt s x = s from by simp [markNodeAt, hv]]
      exact ih s a h
    · rw [show markNodeAt s x = ⟨insert x s.nodesVisited, x :: s.nodesPending⟩
          from by simp [markNodeAt, hv]]
      exact ih _ a (List.mem_cons_of_mem _ h)

theorem visited_foldl_cases (l : List Nat) : ∀ (s : MarkState) (a : Nat),
    a ∈ (l.foldl markNodeAt s).nodesVisited →
    a ∈ s.nodesVisited ∨ a ∈ (l.foldl markNodeAt s).nodesPending := by
  induction l with
  | nil => intro s a h; exact Or.inl h
  | cons x xs ih =>
    intro s a h
    simp only [List.foldl_cons] at h ⊢
    by_cases hv : x ∈ s.nodesVisited
    · rw [show markNodeAt s x = s from by simp [markNodeAt, hv]] at h ⊢
      exact ih s a h
    · rw [show markNodeAt s x = ⟨insert x s.nodesVisited, x :: s.nodesPending⟩
          from by simp [markNodeAt, hv]] at h ⊢
      rcases ih _ a h with h2 | h2
      · simp only [Finset.mem_insert] at h2
        rcases h2 with h2 | h2
        · subst h2
          exact Or.inr (pending_mono_foldl xs _ a (by simp))
        · exact Or.inl h2
      · exact Or.inr h2

theorem pend_sub_vis_foldl (l : List Nat) : ∀ (s : MarkState),
    (∀ a ∈ s.nodesPending, a ∈ s.nodesVisited) →
    ∀ a ∈ (l.foldl markNodeAt s).nodesPending,
      a ∈ (l.foldl markNodeAt s).nodesVisited := by
  induction l with
  | nil => intro s h; exact h
  | cons x xs ih =>
    intro s h
    simp only [List.foldl_cons]
    by_cases hv : x ∈ s.nodesVisited
    · rw [show markNodeAt s x = s from by simp [markNodeAt, hv]]
      exact ih s h
    · rw [show markNodeAt s x = ⟨insert x s.nodesVisited, x :: s.nodesPending⟩
          from by simp [markNodeAt, hv]]
      apply ih
      intro a ha
      simp only [List.mem_cons] at ha
      rcases ha with ha | ha
      · subst ha; simp
      · exact Finset.mem_insert_of_mem (h a ha)

theorem markLoop_pending_nil (g : Graph) : ∀ (s : MarkState),
    (markLoop g s).nodesPending = [] := by
  refine markLoop.induct g (fun s => (markLoop g s).nodesPending = []) ?_ ?_
  · intro v; rw [markLoop]
  · intro v id rest ih; rw [markLoop]; exact ih

theorem markLoop_visited_mono (g : Graph) : ∀ (s : MarkState),
    ∀ a ∈ s.nodesVisited, a ∈ (markLoop g s).nodesVisited := by
  refine markLoop.induct g
    (fun s => ∀ a ∈ s.nodesVisited, a ∈ (markLoop g s).nodesVisited) ?_ ?_
  · intro v a ha; rw [markLoop]; exact ha
  · intro v id rest ih a ha
    rw [markLoop]
    apply ih
    simp only [markEdgesAt]
    rw [mem_foldl_markNodeAt]
    exact Or.inl ha

theorem markLoop_sound (g : Graph) (P : Nat → Prop)
    (hcl : ∀ x y, P x → stepRel g x y → P y) : ∀ (s : MarkState),
    (∀ a ∈ s.nodesPending, a ∈ s.nodesVisited) →
    (∀ a ∈ s.nodesVisited, P a) →
    ∀ a ∈ (markLoop g s).nodesVisited, P a := by
  refine markLoop.induct g (fun s =>
    (∀ a ∈ s.nodesPending, a ∈ s.nodesVisited) →
    (∀ a ∈ s.nodesVisited, P a) →
    ∀ a ∈ (markLoop g s).nodesVisited, P a) ?_ ?_
  · intro v _ hvis a ha
    rw [markLoop] at ha
    exact hvis a ha
  · intro v id rest ih hpend hvis a ha
    rw [markLoop] at ha
    have hidvis : id ∈ v := hpend id (List.mem_cons_self id rest)
    refine ih ?_ ?_ a ha
    · simp only [markEdgesAt]
      apply pend_sub_vis_foldl
      intro b hb
      exact hpend b (List.mem_cons_of_mem _ hb)
    · intro b hb
      simp only [markEdgesAt] at hb
      rw [mem_foldl_markNodeAt] at hb
      rcases hb with hb | hb
      · exact hvis b hb
      · exact hcl id b (hvis id hidvis) hb

theorem markLoop_closed (g : Graph) : ∀ (s : MarkState),
    (∀ x ∈ s.nodesVisited,
      x ∈ s.nodesPending ∨ ∀ y ∈ neighbors g x, y ∈ s.nodesVisited) →
    ∀ x ∈ (markLoop g s).nodesVisited, ∀ y ∈ neighbors g x,
      y ∈ (markLoop g s).nodesVisited := by
  refine markLoop.induct g (fun s =>
    (∀ x ∈ s.nodesVisited,
      x ∈ s.nodesPending ∨ ∀ y ∈ neighbors g x, y ∈ s.nodesVisited) →
    ∀ x ∈ (markLoop g s).nodesVisited, ∀ y ∈ neighbors g x,
      y ∈ (markLoop g s).nodesVisited) ?_ ?_
  · intro v hinv x hx y hy
    rw [markLoop] at hx ⊢
    rcases hinv x hx with hmem | hcl
    · simp at hmem
    · exact hcl y hy
  · intro v id rest ih hinv x hx y hy
    rw [markLoop] at hx ⊢
    refine ih ?_ x hx y hy
    intro z hz
    simp only [markEdgesAt] at hz ⊢
    rcases visited_foldl_cases _ _ z hz with hz2 | hz2
    · rcases hinv z hz2 with hmem | hcl
      · simp only [List.mem_cons] at hmem
        rcases hmem with hmem | hmem
        · subst hmem
          refine Or.inr ?_
          intro y2 hy2
          rw [mem_foldl_markNodeAt]
          exact Or.inr hy2
        · exact Or.inl (pending_mono_foldl _ _ z hmem)
      · refine Or.inr ?_
        intro y2 hy2
        rw [mem_foldl_markNodeAt]
        exact Or.inl (hcl y2 hy2)
    · exact Or.inl hz2

theorem markLoop_empty (g : Graph) : markLoop g ⟨∅, []⟩ = ⟨∅, []⟩ := by
  rw [markLoop]

theorem runMark_iff (g : Graph) (x : Nat) :
    x ∈ runMark g ↔ ReachableFromStart g x := by
  unfold runMark
  cases hstart : g.start with
  | none =>
    show x ∈ (markLoop g ⟨∅, []⟩).nodesVisited ↔ ReachableFromStart g x
    rw [markLoop_empty]
    simp only [Finset.not_mem_empty, false_iff]
    rintro ⟨s, hs, _⟩
    rw [hstart] at hs
    exact Option.noConfusion hs
  | some st =>
    have hs1 : markNodeAt ⟨∅, []⟩ st
        = ⟨insert st ∅, [st]⟩ := by simp [markNodeAt]
    show x ∈ (markLoop g (markNodeAt ⟨∅, []⟩ st)).nodesVisited
        ↔ ReachableFromStart g x
    rw [hs1]
    constructor
    · intro hx
      refine markLoop_sound g (ReachableFromStart g) ?_ _ ?_ ?_ x hx
      · rintro a b ⟨s, hs, hreach⟩ hstep
        exact ⟨s, hs, Relation.ReflTransGen.tail hreach hstep⟩
      · intro a ha
        simp only [List.mem_singleton] at ha
        subst ha
        simp
      · intro a ha
        simp only [Finset.mem_insert, Finset.not_mem_empty, or_false] at ha
        refine ⟨st, hstart, ?_⟩
        rw [ha]
        exact Relation.ReflTransGen.refl
    · rintro ⟨s, hs, hreach⟩
      rw [hstart] at hs
      injection hs with hs
      subst hs
      have hclosed := markLoop_closed g ⟨insert st ∅, [st]⟩ ?_
      · have hst : st ∈ (markLoop g ⟨insert st ∅, [st]⟩).nodesVisited :=
          markLoop_visited_mono g _ st (by simp)
        induction hreach with
        | refl => exact hst
        | tail h1 h2 ih3 =>
          rename_i b c
          exact hclosed b ih3 c h2
      · intro a ha
        simp only [Finset.mem_insert, Finset.not_mem_empty, or_false] at ha
        subst ha
        exact Or.inl (by simp)

end RegionIR

namespace RegionIR

theorem reachable_mem_nodeKeys (g : Graph) (hWF : WFg g) :
    ∀ z, ReachableFromStart g z → z ∈ nodeKeys g := by
  rintro z ⟨s, hs, hreach⟩
  induction hreach with
  | refl => exact hWF.1 s (by simp [hs])
  | tail h1 h2 ih =>
    rename_i b c
    exact hWF.2.1 b ih c h2

theorem mem_nodeKeys_runSweep (g : Graph) (x : Nat) :
    x ∈ nodeKeys (runSweep g) ↔ x ∈ nodeKeys g ∧ x ∈ runMark g := by
  simp only [nodeKeys, runSweep, List.mem_map, List.mem_filter,
    decide_eq_true_eq]
  constructor
  · rintro ⟨p, ⟨hp, hv⟩, rfl⟩
    exact ⟨⟨p, hp, rfl⟩, hv⟩
  · rintro ⟨⟨p, hp, rfl⟩, hv⟩
    exact ⟨p, ⟨hp, hv⟩, rfl⟩

theorem mem_incomingKeys_runSweep (g : Graph) (x : Nat) :
    x ∈ incomingKeys (runSweep g) ↔ x ∈ incomingKeys g ∧ x ∈ runMark g := by
  simp only [incomingKeys, runSweep, List.mem_map, List.mem_filter,
    decide_eq_true_eq]
  constructor
  · rintro ⟨p, ⟨hp, hv⟩, rfl⟩
    exact ⟨⟨p, hp, rfl⟩, hv⟩
  · rintro ⟨⟨p, hp, rfl⟩, hv⟩
    exact ⟨p, ⟨hp, hv⟩, rfl⟩

theorem find?_filter_key {α : Type} (l : List (Nat × α)) (V : Finset Nat)
    (y : Nat) (hy : y ∈ V) :
    (l.filter (fun p => decide (p.1 ∈ V))).find? (fun p => p.1 == y)
      = l.find? (fun p => p.1 == y) := by
  induction l with
  | nil => rfl
  | cons p t ih =>
    by_cases hk : p.1 = y
    · have hpv : decide (p.1 ∈ V) = true := by
        simp [hk, hy]
      have hkey : (p.1 == y) = true := by simp [hk]
      rw [List.filter_cons, if_pos hpv, List.find?_cons, hkey,
        List.find?_cons, hkey]
    · have hkey : (p.1 == y) = false := by simp [hk]
      rw [List.filter_cons]
      by_cases hpv : decide (p.1 ∈ V) = true
      · rw [if_pos hpv, List.find?_cons, hkey, List.find?_cons, hkey]
        exact ih
      · rw [if_neg hpv, List.find?_cons, hkey]
        exact ih

theorem neighbors_runSweep (g : Graph) (y : Nat) (hy : y ∈ runMark g) :
    neighbors (runSweep g) y = neighbors g y := by
  have h1 : lookupNode (runSweep g) y = lookupNode g y := by
    simp only [lookupNode, runSweep]
    rw [find?_filter_key g.nodes (runMark g) y hy]
  have h2 : lookupIncoming (runSweep g) y = lookupIncoming g y := by
    simp only [lookupIncoming, runSweep]
    rw [find?_filter_key g.incoming (runMark g) y hy]
  simp only [neighbors, regionNeighbors, edgeNeighbors, h1, h2]

theorem reachable_runSweep (g : Graph) (z : Nat)
    (hz : ReachableFromStart g z) : ReachableFromStart (runSweep g) z := by
  obtain ⟨s, hs, hreach⟩ := hz
  refine ⟨s, hs, ?_⟩
  have hroot : ∀ w, Reaches g s w → Reaches (runSweep g) s w := by
    intro w hw
    induction hw with
    | refl => exact Relation.ReflTransGen.refl
    | tail h1 h2 ih =>
      rename_i b c
      have hbV : b ∈ runMark g :=
        (runMark_iff g b).mpr ⟨s, hs, h1⟩
      refine Relation.ReflTransGen.tail ih ?_
      show c ∈ neighbors (runSweep g) b
      rw [neighbors_runSweep g b hbV]
      exact h2
  exact hroot z hreach

theorem runSweep_start (g : Graph) : (runSweep g).start = g.start := rfl

theorem runSweep_fixed (g : Graph) : runSweep (runSweep g) = runSweep g := by
  have hnodes : ∀ p ∈ (runSweep g).nodes, p.1 ∈ runMark (runSweep g) := by
    intro p hp
    simp only [runSweep, List.mem_filter, decide_eq_true_eq] at hp
    rw [runMark_iff]
    exact reachable_runSweep g p.1 ((runMark_iff g p.1).mp hp.2)
  have hinc : ∀ p ∈ (runSweep g).incoming, p.1 ∈ runMark (runSweep g) := by
    intro p hp
    simp only [runSweep, List.mem_filter, decide_eq_true_eq] at hp
    rw [runMark_iff]
    exact reachable_runSweep g p.1 ((runMark_iff g p.1).mp hp.2)
  show Graph.mk (runSweep g).start
      ((runSweep g).nodes.filter (fun p => decide (p.1 ∈ runMark (runSweep g))))
      ((runSweep g).incoming.filter (fun p => decide (p.1 ∈ runMark (runSweep g))))
      = runSweep g
  rw [List.filter_eq_self.mpr (fun p hp => by simp [hnodes p hp]),
    List.filter_eq_self.mpr (fun p hp => by simp [hinc p hp])]

/-- C5: for every well-formed graph — start key present, neighbour handles
present, incoming map keyed like the node map (exactly the condition under
which the Rust `mark` indexes no missing slot-map key) — the node set
surviving `MarkAndSweep::run` (the keys of both the node map and the
incoming map) is exactly the set of nodes reachable from `Graph.start` by
following incoming-edge sources and, for compound nodes, each region's
start and end handles; consequently a second run retains exactly the same
graph. -/
theorem mark_and_sweep_retains_reachable (g : Graph) (hWF : WFg g) :
    (∀ x, x ∈ nodeKeys (runSweep g) ↔ ReachableFromStart g x) ∧
    (∀ x, x ∈ incomingKeys (runSweep g) ↔ ReachableFromStart g x) ∧
    runSweep (runSweep g) = runSweep g := by
  refine ⟨fun x => ?_, fun x => ?_, runSweep_fixed g⟩
  · rw [mem_nodeKeys_runSweep, runMark_iff]
    constructor
    · rintro ⟨_, h⟩; exact h
    · intro h
      exact ⟨reachable_mem_nodeKeys g hWF x h, h⟩
  · rw [mem_incomingKeys_runSweep, runMark_iff]
    constructor
    · rintro ⟨_, h⟩; exact h
    · intro h
      exact ⟨hWF.2.2.2 x (reachable_mem_nodeKeys g hWF x h), h⟩

/-- Witness for `mark_and_sweep_retains_reachable` at a one-node graph
whose single node is its own start. -/
theorem mark_and_sweep_retains_reachable_witness :
    WFg ⟨some 0, [(0, Node.simple .regionStart)], [(0, [])]⟩ ∧
    ((∀ x, x ∈ nodeKeys (runSweep ⟨some 0, [(0, Node.simple .regionStart)], [(0, [])]⟩)
        ↔ ReachableFromStart ⟨some 0, [(0, Node.simple .regionStart)], [(0, [])]⟩ x) ∧
      (∀ x, x ∈ incomingKeys (runSweep ⟨some 0, [(0, Node.simple .regionStart)], [(0, [])]⟩)
        ↔ ReachableFromStart ⟨some 0, [(0, Node.simple .regionStart)], [(0, [])]⟩ x) ∧
      runSweep (runSweep ⟨some 0, [(0, Node.simple .regionStart)], [(0, [])]⟩)
        = runSweep ⟨some 0, [(0, Node.simple .regionStart)], [(0, [])]⟩) :=
  ⟨by decide,
    mark_and_sweep_retains_reachable
      ⟨some 0, [(0, Node.simple .regionStart)], [(0, [])]⟩ (by decide)⟩

/-- C9: when `Graph.start` is `None`, `MarkAndSweep::run` marks nothing and
removes every node: both the node map and the incoming map end up empty,
regardless of the graph's prior contents. -/
theorem mark_and_sweep_no_start_clears (g : Graph) (h : g.start = none) :
    (runSweep g).nodes = [] ∧ (runSweep g).incoming = [] := by
  have hV : runMark g = ∅ := by
    unfold runMark
    rw [h]
    show (markLoop g ⟨∅, []⟩).nodesVisited = ∅
    rw [markLoop_empty]
  simp [runSweep, hV]

/-- Witness for `mark_and_sweep_no_start_clears` at a startless graph that
still contains a node and an incoming entry. -/
theorem mark_and_sweep_no_start_clears_witness :
    (Graph.mk none [(7, Node.simple .regionEnd)] [(7, [])]).start = none ∧
    ((runSweep ⟨none, [(7, Node.simple .regionEnd)], [(7, [])]⟩).nodes = [] ∧
      (runSweep ⟨none, [(7, Node.simple .regionEnd)], [(7, [])]⟩).incoming = []) :=
  ⟨rfl, mark_and_sweep_no_start_clears
    ⟨none, [(7, Node.simple .regionEnd)], [(7, [])]⟩ rfl⟩

end RegionIR

namespace Factory

theorem interpretedCount_eq (n : Nat) (h1 : 1 ≤ n) (h2 : n < 2 ^ 64) :
    interpretedCount n = n - 1 := by
  unfold interpretedCount usizeMax
  have h3 : n + (2 ^ 64 - 1) = (n - 1) + 2 ^ 64 := by omega
  rw [h3, Nat.add_mod_right]
  exact Nat.mod_eq_of_lt (by omega)

/-- C10: `Factory::build_stat_list` (hence `create_anonymous` and
`create_indexed`) interprets exactly the first `len - 1` operators of its
list — the function's closing `End` is never interpreted — and on the
empty list the `usize` subtraction `len - 1` wraps to `usize::MAX`, so no
operator is processed. -/
theorem build_stat_list_final_end (l : List Op) (h : l.length < 2 ^ 64) :
    interpretedOps l = l.dropLast ∧
    (∀ info f nr, buildStatList info f l nr
        = buildStatListOn info f l.dropLast nr) ∧
    interpretedCount 0 = 2 ^ 64 - 1 ∧
    interpretedOps ([] : List Op) = [] := by
  have hops : interpretedOps l = l.dropLast := by
    unfold interpretedOps
    cases l with
    | nil => rfl
    | cons a t =>
      rw [interpretedCount_eq (a :: t).length (by simp) h]
      exact (List.dropLast_eq_take _).symm
  refine ⟨hops, fun info f nr => ?_, by decide, rfl⟩
  rw [buildStatList, hops]

/-- Witness for `build_stat_list_final_end` at the one-operator body
`[End]`: nothing before the closing `End` is interpreted. -/
theorem build_stat_list_final_end_witness :
    ([Op.endOp] : List Op).length < 2 ^ 64 ∧
    interpretedOps [Op.endOp] = ([Op.endOp] : List Op).dropLast :=
  ⟨by decide, (build_stat_list_final_end [Op.endOp] (by decide)).1⟩

end Factory

namespace LuauBackend

open WasmAst

theorem mem_sortInsert (a : Br) : ∀ (l : List Br) (x : Br),
    x ∈ sortInsert a l ↔ x = a ∨ x ∈ l := by
  intro l
  induction l with
  | nil => intro x; simp [sortInsert]
  | cons b t ih =>
    intro x
    simp only [sortInsert]
    split
    · simp only [List.mem_cons]
    · simp only [List.mem_cons, ih]
      tauto

theorem sortInsert_pairwise (a : Br) : ∀ (l : List Br),
    l.Pairwise (fun p q => p.target ≤ q.target) →
    (sortInsert a l).Pairwise (fun p q => p.target ≤ q.target) := by
  intro l
  induction l with
  | nil => intro _; simp [sortInsert]
  | cons b t ih =>
    intro hp
    rw [List.pairwise_cons] at hp
    obtain ⟨hb, ht⟩ := hp
    simp only [sortInsert]
    split
    · rename_i hle
      rw [List.pairwise_cons]
      refine ⟨?_, ?_⟩
      · intro x hx
        rcases List.mem_cons.mp hx with rfl | hx
        · exact hle
        · exact le_trans hle (hb x hx)
      · rw [List.pairwise_cons]
        exact ⟨hb, ht⟩
    · rename_i hgt
      rw [List.pairwise_cons]
      refine ⟨?_, ih ht⟩
      intro x hx
      rcases (mem_sortInsert a t x).mp hx with rfl | hx
      · omega
      · exact hb x hx

theorem sortByTarget_pairwise : ∀ (l : List Br),
    (sortByTarget l).Pairwise (fun p q => p.target ≤ q.target) := by
  intro l
  induction l with
  | nil => simp [sortByTarget]
  | cons a t ih => exact sortInsert_pairwise a _ ih

theorem mem_sortByTarget : ∀ (l : List Br) (x : Br),
    x ∈ sortByTarget l ↔ x ∈ l := by
  intro l
  induction l with
  | nil => intro x; simp [sortByTarget]
  | cons a t ih =>
    intro x
    simp only [sortByTarget, mem_sortInsert, ih, List.mem_cons]

theorem mem_of_mem_dedupByTarget : ∀ (l : List Br) (x : Br),
    x ∈ dedupByTarget l → x ∈ l := by
  intro l
  induction l using dedupByTarget.induct with
  | case1 => intro x hx; simp [dedupByTarget] at hx
  | case2 a => intro x hx; simpa [dedupByTarget] using hx
  | case3 a b rest heq ih =>
    intro x hx
    rw [dedupByTarget, if_pos heq] at hx
    have := ih x hx
    rcases List.mem_cons.mp this with rfl | h2
    · exact List.mem_cons_self _ _
    · exact List.mem_cons_of_mem _ (List.mem_cons_of_mem _ h2)
  | case4 a b rest heq ih =>
    intro x hx
    rw [dedupByTarget, if_neg heq] at hx
    rcases List.mem_cons.mp hx with rfl | h2
    · exact List.mem_cons_self _ _
    · exact List.mem_cons_of_mem _ (ih x h2)

theorem target_mem_dedupByTarget : ∀ (l : List Br) (t : Nat),
    (∃ x, x ∈ dedupByTarget l ∧ x.target = t)
      ↔ (∃ x, x ∈ l ∧ x.target = t) := by
  intro l
  induction l using dedupByTarget.induct with
  | case1 => intro t; simp [dedupByTarget]
  | case2 a => intro t; simp [dedupByTarget]
  | case3 a b rest heq ih =>
    intro t
    rw [dedupByTarget, if_pos heq]
    rw [ih t]
    constructor
    · rintro ⟨x, hx, rfl⟩
      rcases List.mem_cons.mp hx with rfl | h2
      · exact ⟨x, List.mem_cons_self _ _, rfl⟩
      · exact ⟨x, List.mem_cons_of_mem _ (List.mem_cons_of_mem _ h2), rfl⟩
    · rintro ⟨x, hx, rfl⟩
      rcases List.mem_cons.mp hx with rfl | h2
      · exact ⟨x, List.mem_cons_self _ _, rfl⟩
      · rcases List.mem_cons.mp h2 with rfl | h3
        · exact ⟨a, List.mem_cons_self _ _, heq.symm ▸ rfl⟩
        · exact ⟨x, List.mem_cons_of_mem _ h3, rfl⟩
  | case4 a b rest heq ih =>
    intro t
    rw [dedupByTarget, if_neg heq]
    constructor
    · rintro ⟨x, hx, rfl⟩
      rcases List.mem_cons.mp hx with rfl | h2
      · exact ⟨x, List.mem_cons_self _ _, rfl⟩
      · obtain ⟨y, hy, hyt⟩ := (ih x.target).mp ⟨x, h2, rfl⟩
        exact ⟨y, List.mem_cons_of_mem _ hy, hyt⟩
    · rintro ⟨x, hx, rfl⟩
      rcases List.mem_cons.mp hx with rfl | h2
      · exact ⟨x, List.mem_cons_self _ _, rfl⟩
      · obtain ⟨y, hy, hyt⟩ := (ih x.target).mpr ⟨x, h2, rfl⟩
        exact ⟨y, List.mem_cons_of_mem _ hy, hyt⟩

theorem dedupByTarget_pairwise_lt : ∀ (l : List Br),
    l.Pairwise (fun p q => p.target ≤ q.target) →
    (dedupByTarget l).Pairwise (fun p q => p.target < q.target) := by
  intro l
  induction l using dedupByTarget.induct with
  | case1 => intro _; simp [dedupByTarget]
  | case2 a => intro _; simp [dedupByTarget]
  | case3 a b rest heq ih =>
    intro hp
    rw [dedupByTarget, if_pos heq]
    rw [List.pairwise_cons] at hp
    obtain ⟨ha, hp2⟩ := hp
    rw [List.pairwise_cons] at hp2
    obtain ⟨hb, hp3⟩ := hp2
    refine ih ?_
    rw [List.pairwise_cons]
    exact ⟨fun x hx => ha x (List.mem_cons_of_mem _ hx), hp3⟩
  | case4 a b rest heq ih =>
    intro hp
    rw [dedupByTarget, if_neg heq]
    rw [List.pairwise_cons] at hp
    obtain ⟨ha, hp2⟩ := hp
    rw [List.pairwise_cons]
    refine ⟨?_, ih hp2⟩
    intro x hx
    have hxmem : x ∈ b :: rest := mem_of_mem_dedupByTarget _ x hx
    have hax : a.target ≤ x.target := ha x hxmem
    have hab : a.target ≤ b.target := ha b (List.mem_cons_self _ _)
    rcases List.mem_cons.mp hxmem with rfl | h2
    · omega
    · rw [List.pairwise_cons] at hp2
      have := hp2.1 x h2
      omega

/-- C6: for every `BrTable` emission, the lookup table built by
`to_ordered_table` before the binary search has strictly ascending target
depths, and its targets are exactly the distinct targets of the table's
entries plus the default target.  (Proved for every target list; the
non-empty case of the claim is an instance.) -/
theorem br_table_ordered_lookup (list : List Br) (dflt : Br) :
    ((toOrderedTable list dflt).map Br.target).Pairwise (· < ·) ∧
    (∀ t, t ∈ (toOrderedTable list dflt).map Br.target ↔
      (t ∈ list.map Br.target ∨ t = dflt.target)) := by
  constructor
  · rw [List.pairwise_map]
    exact dedupByTarget_pairwise_lt _ (sortByTarget_pairwise _)
  · intro t
    simp only [List.mem_map]
    unfold toOrderedTable
    rw [target_mem_dedupByTarget]
    constructor
    · rintro ⟨x, hx, rfl⟩
      rw [mem_sortByTarget] at hx
      rcases List.mem_append.mp hx with h | h
      · exact Or.inl ⟨x, h, rfl⟩
      · rw [List.mem_singleton] at h
        subst h
        exact Or.inr rfl
    · rintro (⟨x, hx, rfl⟩ | rfl)
      · exact ⟨x, (mem_sortByTarget _ x).mpr (List.mem_append.mpr (Or.inl hx)), rfl⟩
      · exact ⟨dflt, (mem_sortByTarget _ dflt).mpr
          (List.mem_append.mpr (Or.inr (List.mem_singleton.mpr rfl))), rfl⟩

end LuauBackend

namespace LuauBackend

open WasmAst

theorem getTableIndex_preserves (m : Mng) (t : BrTable) :
    (m.getTableIndex t).2.labelList = m.labelList ∧
    (m.getTableIndex t).2.depth = m.depth := by
  rcases h : m.tableKeys.indexOf? t with _ | i <;>
    simp [Mng.getTableIndex, h]

theorem writeTableSetup_preserves (t : BrTable) (m : Mng) :
    (writeTableSetup t m).2.labelList = m.labelList ∧
    (writeTableSetup t m).2.depth = m.depth := by
  obtain ⟨h1, h2⟩ := getTableIndex_preserves m t
  rcases hm : m.getTableIndex t with ⟨id, m1⟩
  rw [hm] at h1 h2
  rw [writeTableSetup, hm]
  exact ⟨h1, h2⟩

theorem writeBrTable_preserves (t : BrTable) (m : Mng) :
    (writeBrTable t m).2.labelList = m.labelList ∧
    (writeBrTable t m).2.depth = m.depth := by
  rw [writeBrTable]
  split
  · exact ⟨rfl, rfl⟩
  · obtain ⟨h1, h2⟩ := writeTableSetup_preserves t m
    rcases hm : writeTableSetup t m with ⟨items, m1⟩
    rw [hm] at h1 h2
    exact ⟨h1, h2⟩

theorem writeTerminator_preserves (t : Terminator) (m : Mng) :
    (writeTerminator t m).2.labelList = m.labelList ∧
    (writeTerminator t m).2.depth = m.depth := by
  cases t with
  | unreachableT => exact ⟨rfl, rfl⟩
  | brT b => exact ⟨rfl, rfl⟩
  | brTableT tb => exact writeBrTable_preserves tb m

theorem writers_preserve :
    (∀ (s : Statement) (m : Mng),
      (writeStatement s m).2.labelList = m.labelList ∧
      (writeStatement s m).2.depth = m.depth) ∧
    (∀ (i : IfStat) (m : Mng),
      (writeIfStat i m).2.labelList = m.labelList ∧
      (writeIfStat i m).2.depth = m.depth) ∧
    (∀ (b : Blk) (m : Mng),
      (writeBlk b m).2.labelList = m.labelList ∧
      (writeBlk b m).2.depth = m.depth) ∧
    (∀ (l : List Statement) (m : Mng),
      (writeStatList l m).2.labelList = m.labelList ∧
      (writeStatList l m).2.depth = m.depth) := by
  refine writeStatement.mutual_induct
    (fun s m => (writeStatement s m).2.labelList = m.labelList ∧
      (writeStatement s m).2.depth = m.depth)
    (fun i m => (writeIfStat i m).2.labelList = m.labelList ∧
      (writeIfStat i m).2.depth = m.depth)
    (fun b m => (writeBlk b m).2.labelList = m.labelList ∧
      (writeBlk b m).2.depth = m.depth)
    (fun l m => (writeStatList l m).2.labelList = m.labelList ∧
      (writeStatList l m).2.depth = m.depth)
    ?_ ?_ ?_ ?_ ?_ ?_ ?_ ?_ ?_ ?_ ?_ ?_ ?_ ?_ ?_ ?_ ?_
  · intro m b ih
    simpa only [writeStatement] using ih
  · intro m bi
    simp [writeStatement]
  · intro m i ih
    simpa only [writeStatement] using ih
  · intro m c
    simp [writeStatement]
  · intro m c
    simp [writeStatement]
  · intro m x
    simp [writeStatement]
  · intro m x
    simp [writeStatement]
  · intro m x
    simp [writeStatement]
  · intro m x
    simp [writeStatement]
  · intro m x
    simp [writeStatement]
  · intro m x
    simp [writeStatement]
  · intro m x
    simp [writeStatement]
  · intro m lt code last
    dsimp only
    intro items m3 heq1 items2 m4 heq2 ih
    obtain ⟨ihL, ihD⟩ := ih
    rw [heq1] at ihL ihD
    have eL : m3.labelList = m.labelList ++ [lt] := by
      rw [ihL]; simp [Mng.pushLabel, Mng.indent]
    have eD : m3.depth = m.depth + 1 := by
      rw [ihD]; simp [Mng.pushLabel, Mng.indent]
    cases last with
    | none =>
      constructor
      · simp only [writeBlk, heq1, Mng.popLabel, Mng.dedent]
        rw [eL]
        simp [List.dropLast_concat]
      · simp only [writeBlk, heq1, Mng.popLabel, Mng.dedent]
        omega
    | some v =>
      have heq2a : writeTerminator v m3 = (items2, m4) := heq2
      obtain ⟨h1, h2⟩ := writeTerminator_preserves v m3
      rw [heq2a] at h1 h2
      have h1n : m4.labelList = m3.labelList := h1
      have h2n : m4.depth = m3.depth := h2
      constructor
      · simp only [writeBlk, heq1, heq2a, Mng.popLabel, Mng.dedent]
        rw [h1n, eL]
        simp [List.dropLast_concat]
      · simp only [writeBlk, heq1, heq2a, Mng.popLabel, Mng.dedent]
        omega
  · intro m c onTrue items m1 heq1
    dsimp only
    intro fb items2 m3 heq2 ihT ihF
    obtain ⟨hT1, hT2⟩ := ihT
    rw [heq1] at hT1 hT2
    obtain ⟨hF1, hF2⟩ := ihF
    rw [heq2] at hF1 hF2
    have l1 : m1.labelList = m.labelList := by
      rw [hT1]; simp [Mng.indent]
    have e1 : m1.depth = m.depth + 1 := by
      rw [hT2]; simp [Mng.indent]
    have l2 : m3.labelList = m1.labelList := by
      rw [hF1]; simp [Mng.indent, Mng.dedent]
    have e2 : m3.depth = m1.depth - 1 + 1 := by
      rw [hF2]; simp [Mng.indent, Mng.dedent]
    constructor
    · simp only [writeIfStat, heq1, heq2]
      simp only [Mng.dedent]
      rw [l2, l1]
    · simp only [writeIfStat, heq1, heq2]
      simp only [Mng.dedent]
      omega
  · intro m c onTrue items m1 heq1 ihT
    obtain ⟨hT1, hT2⟩ := ihT
    rw [heq1] at hT1 hT2
    have l1 : m1.labelList = m.labelList := by
      rw [hT1]; simp [Mng.indent]
    have e1 : m1.depth = m.depth + 1 := by
      rw [hT2]; simp [Mng.indent]
    constructor
    · simp only [writeIfStat, heq1, Mng.dedent]
      exact l1
    · simp only [writeIfStat, heq1, Mng.dedent]
      omega
  · intro m
    simp [writeStatList]
  · intro m s rest items m1 heq1 items2 m2 heq2 ih1 ih2
    obtain ⟨a1, a2⟩ := ih1
    rw [heq1] at a1 a2
    obtain ⟨b1, b2⟩ := ih2
    rw [heq2] at b1 b2
    constructor
    · simp only [writeStatList, heq1, heq2]
      rw [b1, a1]
    · simp only [writeStatList, heq1, heq2]
      rw [b2, a2]

end LuauBackend

namespace LuauBackend

open WasmAst

/-- C7: `Br` emission.  With a trivial alignment: a target-0 branch emits
`continue` when the innermost label is a backward label and `break`
otherwise; a deeper branch emits `desired = level` with
`level = label-stack length - 1 - target`, then `break`.  With a
non-trivial alignment the range-to-range assignment is written before the
branch lines.  A lifted loop's `BlockData::Backward` converts to
`LabelType::Backward`, and writing a `Block` whose label type is
`Backward` and whose terminator is `br 0` emits `continue` (at one level
deeper than the block's own line). -/
theorem br_emission (m : Mng) (br : Br) (np : Nat) (code : List Statement) :
    (br.align.isAligned = true → br.target = 0 →
      m.labelList.getLast? = some (some LabelType.backward) →
      writeBr m br = [OutItem.strLine m.depth "continue"]) ∧
    (br.align.isAligned = true → br.target = 0 →
      m.labelList.getLast? ≠ some (some LabelType.backward) →
      writeBr m br = [OutItem.strLine m.depth "break"]) ∧
    (br.align.isAligned = true → 0 < br.target →
      writeBr m br =
        [OutItem.strLine m.depth
            ("desired = " ++ toString (m.labelList.length - 1 - br.target)),
          OutItem.strLine m.depth "break"]) ∧
    (br.align.isAligned = false →
      ∃ rest, writeBr m br
          = OutItem.rangeAssign m.depth br.align.newRange br.align.oldRange
              :: rest
        ∧ rest ≠ []) ∧
    (Factory.labelTypeOf (Factory.BlockData.backward np)
      = LabelType.backward) ∧
    (br.align.isAligned = true → br.target = 0 →
      ∃ pre post,
        (writeBlk
            (Blk.mk (some LabelType.backward) code
              (some (Terminator.brT br))) m).1
          = pre ++ OutItem.strLine (m.depth + 1) "continue" :: post) := by
  refine ⟨?_, ?_, ?_, ?_, rfl, ?_⟩
  · intro ha ht hl
    simp [writeBr, ha, ht, hl]
  · intro ha ht hl
    simp [writeBr, ha, ht, hl]
  · intro ha ht
    simp [writeBr, ha, Nat.pos_iff_ne_zero.mp ht]
  · intro ha
    by_cases ht : br.target = 0
    · by_cases hl : m.labelList.getLast? = some (some LabelType.backward)
      · exact ⟨[OutItem.strLine m.depth "continue"],
          by simp [writeBr, ha, ht, hl], by simp⟩
      · exact ⟨[OutItem.strLine m.depth "break"],
          by simp [writeBr, ha, ht, hl], by simp⟩
    · exact ⟨[OutItem.strLine m.depth
            ("desired = " ++ toString (m.labelList.length - 1 - br.target)),
          OutItem.strLine m.depth "break"],
        by simp [writeBr, ha, ht], by simp⟩
  · intro ha ht
    obtain ⟨codeItems, m3, heq⟩ :
        ∃ ci m3, writeStatList code
            ((m.pushLabel (some LabelType.backward)).indent) = (ci, m3) :=
      ⟨_, _, rfl⟩
    have hpres := writers_preserve.2.2.2 code
      ((m.pushLabel (some LabelType.backward)).indent)
    rw [heq] at hpres
    have hL : m3.labelList = m.labelList ++ [some LabelType.backward] := by
      rw [hpres.1]
      simp [Mng.pushLabel, Mng.indent]
    have hD : m3.depth = m.depth + 1 := by
      rw [hpres.2]
      simp [Mng.pushLabel, Mng.indent]
    have hlast : m3.labelList.getLast? = some (some LabelType.backward) := by
      rw [hL]
      simp
    have hbr : writeBr m3 br = [OutItem.strLine (m.depth + 1) "continue"] := by
      rw [← hD]
      simp [writeBr, ha, ht, hlast]
    refine ⟨OutItem.strLine m.depth "while true do" :: codeItems,
      OutItem.strLine m.depth "end"
        :: writeBrParent ((m3.dedent).popLabel), ?_⟩
    simp only [writeBlk, heq, writeTerminator, hbr]
    simp [Mng.pushLabel, Mng.indent, Mng.dedent, Mng.popLabel, hD]

end LuauBackend

namespace LuauBackend

open WasmAst

/-- Witness for `br_emission`: a trivially aligned `br 0` written under an
innermost backward label becomes one `continue` line. -/
theorem br_emission_witness :
    writeBr ⟨[some LabelType.backward], 0, false, false, [], 0, 0⟩
        ⟨0, ⟨⟨0, 0⟩, ⟨0, 0⟩⟩⟩
      = [OutItem.strLine 0 "continue"] :=
  (br_emission ⟨[some LabelType.backward], 0, false, false, [], 0, 0⟩
      ⟨0, ⟨⟨0, 0⟩, ⟨0, 0⟩⟩⟩ 0 []).1 (by decide) rfl (by decide)

end LuauBackend

namespace Factory

open WasmAst

theorem leakAux_mem (prev : Nat) (cond : Expression → Bool) :
    ∀ (i : Nat) (l : List Expression) (e : Expression),
    e ∈ (leakAux prev cond i l).1 →
    (e ∈ l ∧ cond e = false) ∨ ∃ v, e = Expression.getTemporary v := by
  intro i l
  induction l generalizing i with
  | nil => intro e he; simp [leakAux] at he
  | cons a rest ih =>
    intro e he
    simp only [leakAux] at he
    rcases hrec : leakAux prev cond (i + 1) rest with ⟨rest2, stmts⟩
    rw [hrec] at he
    by_cases hc : a = Expression.getTemporary (prev + i) ∨ cond a = false
    · rw [if_pos hc] at he
      rcases List.mem_cons.mp he with rfl | h2
      · rcases hc with hc | hc
        · exact Or.inr ⟨_, hc⟩
        · exact Or.inl ⟨List.mem_cons_self _ _, hc⟩
      · have h3 := ih (i + 1) e (by rw [hrec]; exact h2)
        rcases h3 with ⟨h4, h5⟩ | h6
        · exact Or.inl ⟨List.mem_cons_of_mem _ h4, h5⟩
        · exact Or.inr h6
    · rw [if_neg hc] at he
      rcases List.mem_cons.mp he with rfl | h2
      · exact Or.inr ⟨_, rfl⟩
      · have h3 := ih (i + 1) e (by rw [hrec]; exact h2)
        rcases h3 with ⟨h4, h5⟩ | h6
        · exact Or.inl ⟨List.mem_cons_of_mem _ h4, h5⟩
        · exact Or.inr h6

theorem leakAux_stmts (prev : Nat) (cond : Expression → Bool) :
    ∀ (i : Nat) (l : List Expression) (s : Statement),
    s ∈ (leakAux prev cond i l).2 →
    ∃ a, s = Statement.setTemporaryS a := by
  intro i l
  induction l generalizing i with
  | nil => intro s hs; simp [leakAux] at hs
  | cons a rest ih =>
    intro s hs
    simp only [leakAux] at hs
    rcases hrec : leakAux prev cond (i + 1) rest with ⟨rest2, stmts⟩
    rw [hrec] at hs
    by_cases hc : a = Expression.getTemporary (prev + i) ∨ cond a = false
    · rw [if_pos hc] at hs
      exact ih (i + 1) s (by rw [hrec]; exact hs)
    · rw [if_neg hc] at hs
      rcases List.mem_cons.mp hs with rfl | h2
      · exact ⟨_, rfl⟩
      · exact ih (i + 1) s (by rw [hrec]; exact h2)

theorem leakAux_preserve (prev : Nat) (cond : Expression → Bool) :
    ∀ (i : Nat) (l : List Expression) (j : Nat) (e : Expression),
    l.get? j = some e → cond e = false →
    (leakAux prev cond i l).1.get? j = some e := by
  intro i l
  induction l generalizing i with
  | nil => intro j e hj _; simp at hj
  | cons a rest ih =>
    intro j e hj hc
    simp only [leakAux]
    rcases hrec : leakAux prev cond (i + 1) rest with ⟨rest2, stmts⟩
    by_cases hcase : a = Expression.getTemporary (prev + i) ∨ cond a = false
    · rw [if_pos hcase]
      cases j with
      | zero =>
        rw [List.get?_cons_zero] at hj ⊢
        exact hj
      | succ j2 =>
        rw [List.get?_cons_succ] at hj ⊢
        have h5 := ih (i + 1) j2 e hj hc
        rw [hrec] at h5
        exact h5
    · rw [if_neg hcase]
      push_neg at hcase
      cases j with
      | zero =>
        rw [List.get?_cons_zero] at hj
        have ha : a = e := by injection hj
        exact absurd (ha ▸ hc) hcase.2
      | succ j2 =>
        rw [List.get?_cons_succ] at hj ⊢
        have h5 := ih (i + 1) j2 e hj hc
        rw [hrec] at h5
        exact h5

theorem leakInto_entries (st : Stack) (cond : Expression → Bool)
    (e : Expression) (he : e ∈ (st.leakInto cond).1.varList) :
    (e ∈ st.varList ∧ cond e = false) ∨ ∃ v, e = Expression.getTemporary v := by
  rw [Stack.leakInto] at he
  rcases h : leakAux st.previous cond 0 st.varList with ⟨vl, stmts⟩
  rw [h] at he
  have : e ∈ (leakAux st.previous cond 0 st.varList).1 := by
    rw [h]; exact he
  exact leakAux_mem st.previous cond 0 st.varList e this

theorem leakInto_stmts (st : Stack) (cond : Expression → Bool)
    (s : Statement) (hs : s ∈ (st.leakInto cond).2) :
    ∃ a, s = Statement.setTemporaryS a := by
  rw [Stack.leakInto] at hs
  rcases h : leakAux st.previous cond 0 st.varList with ⟨vl, stmts⟩
  rw [h] at hs
  have : s ∈ (leakAux st.previous cond 0 st.varList).2 := by
    rw [h]; exact hs
  exact leakAux_stmts st.previous cond 0 st.varList s this

theorem leakInto_preserve (st : Stack) (cond : Expression → Bool)
    (j : Nat) (e : Expression) (hj : st.varList.get? j = some e)
    (hc : cond e = false) :
    (st.leakInto cond).1.varList.get? j = some e := by
  rw [Stack.leakInto]
  rcases h : leakAux st.previous cond 0 st.varList with ⟨vl, stmts⟩
  have h5 := leakAux_preserve st.previous cond 0 st.varList j e hj hc
  rw [h] at h5
  exact h5

theorem readsHazard_temp (x : Hazard) (v : Nat) :
    readsHazard x (Expression.getTemporary v) = false := by
  cases x <;> rfl

end Factory

namespace Factory

open WasmAst

theorem leakLocalWrite_spec (s : StatList) (i : Nat) :
    (s.leakLocalWrite i).code = s.code
      ++ (s.stack.leakInto
          (readGet (fun v => v == i) (fun _ => false) (fun _ => false))).2 ∧
    (s.leakLocalWrite i).stack
      = (s.stack.leakInto
          (readGet (fun v => v == i) (fun _ => false) (fun _ => false))).1 := by
  rw [StatList.leakLocalWrite]
  rcases h : s.stack.leakInto
      (readGet (fun v => v == i) (fun _ => false) (fun _ => false)) with
    ⟨st2, stmts⟩
  exact ⟨rfl, rfl⟩

theorem leakGlobalWrite_spec (s : StatList) (i : Nat) :
    (s.leakGlobalWrite i).code = s.code
      ++ (s.stack.leakInto
          (readGet (fun _ => false) (fun v => v == i) (fun _ => false))).2 ∧
    (s.leakGlobalWrite i).stack
      = (s.stack.leakInto
          (readGet (fun _ => false) (fun v => v == i) (fun _ => false))).1 := by
  rw [StatList.leakGlobalWrite]
  rcases h : s.stack.leakInto
      (readGet (fun _ => false) (fun v => v == i) (fun _ => false)) with
    ⟨st2, stmts⟩
  exact ⟨rfl, rfl⟩

theorem leakMemoryWrite_spec (s : StatList) (i : Nat) :
    (s.leakMemoryWrite i).code = s.code
      ++ (s.stack.leakInto
          (readGet (fun _ => false) (fun _ => false) (fun v => v == i))).2 ∧
    (s.leakMemoryWrite i).stack
      = (s.stack.leakInto
          (readGet (fun _ => false) (fun _ => false) (fun v => v == i))).1 := by
  rw [StatList.leakMemoryWrite]
  rcases h : s.stack.leakInto
      (readGet (fun _ => false) (fun _ => false) (fun v => v == i)) with
    ⟨st2, stmts⟩
  exact ⟨rfl, rfl⟩

theorem leakPreCall_spec (s : StatList) :
    (s.leakPreCall).code = s.code ++ (s.stack.leakInto preCallCond).2 ∧
    (s.leakPreCall).stack = (s.stack.leakInto preCallCond).1 := by
  rw [StatList.leakPreCall]
  rcases h : s.stack.leakInto preCallCond with ⟨st2, stmts⟩
  exact ⟨rfl, rfl⟩

end Factory

namespace Factory

open WasmAst

/-- C1: spill soundness.  For every operator whose processing appends a
statement writing hazard `X` (a local, global, or memory), the Factory
first emits the corresponding `leak_*_write` spills (all `SetTemporary`
statements), then the writer statement; afterwards no expression left
pending on the operand stack from before the write still reads `X` — at
most one fresh expression (`LocalTee`'s re-pushed `GetLocal`) follows the
spilled prefix. -/
theorem spill_soundness (info : TypeInfo) (f : FactoryState) (op : Op)
    (x : Hazard) (hw : opWritesHazard op x = true) :
    ∃ spills w kept pushed,
      (addInstruction info f op).target.code
        = f.target.code ++ spills ++ [w] ∧
      (∀ s ∈ spills, ∃ a, s = Statement.setTemporaryS a) ∧
      stmtWritesHazard w x = true ∧
      (addInstruction info f op).target.stack.varList = kept ++ pushed ∧
      (∀ e ∈ kept, readsHazard x e = false) ∧
      pushed.length ≤ 1 := by
  cases op with
  | localSet j =>
    cases x with
    | localH i =>
      have hji : j = i := by simpa [opWritesHazard] using hw
      subst hji
      rcases hp : f.target.stack.pop with ⟨value, st⟩
      have hred : addInstruction info f (Op.localSet j)
          = { f with target :=
              { StatList.leakLocalWrite { f.target with stack := st } j with
                  code := (StatList.leakLocalWrite
                      { f.target with stack := st } j).code
                    ++ [Statement.setLocalS ⟨j, value⟩] } } := by
        simp only [addInstruction, StatList.tryAddOperation, hp]
      obtain ⟨hcode, hstack⟩ :=
        leakLocalWrite_spec { f.target with stack := st } j
      refine ⟨(st.leakInto
            (readGet (fun v => v == j) (fun _ => false) (fun _ => false))).2,
        Statement.setLocalS ⟨j, value⟩,
        (st.leakInto
            (readGet (fun v => v == j) (fun _ => false) (fun _ => false))).1.varList,
        [], ?_, ?_, ?_, ?_, ?_, by simp⟩
      · rw [hred, hcode]
        try simp [List.append_assoc]
      · intro s hs
        exact leakInto_stmts _ _ s hs
      · simp [stmtWritesHazard]
      · rw [hred, hstack]
        try simp
      · intro e he
        rcases leakInto_entries _ _ e he with ⟨_, hcond⟩ | ⟨v, rfl⟩
        · simpa only [readsHazard] using hcond
        · exact readsHazard_temp _ _
    | globalH i => exact absurd hw (by simp [opWritesHazard])
    | memoryH i => exact absurd hw (by simp [opWritesHazard])
  | localTee j =>
    cases x with
    | localH i =>
      have hji : j = i := by simpa [opWritesHazard] using hw
      subst hji
      rcases hp : f.target.stack.pop with ⟨value, st⟩
      have hred : addInstruction info f (Op.localTee j)
          = { f with target :=
              { StatList.leakLocalWrite { f.target with stack := st } j with
                  stack := (StatList.leakLocalWrite
                      { f.target with stack := st } j).stack.push
                    (Expression.getLocal j),
                  code := (StatList.leakLocalWrite
                      { f.target with stack := st } j).code
                    ++ [Statement.setLocalS ⟨j, value⟩] } } := by
        simp only [addInstruction, StatList.tryAddOperation, hp]
      obtain ⟨hcode, hstack⟩ :=
        leakLocalWrite_spec { f.target with stack := st } j
      refine ⟨(st.leakInto
            (readGet (fun v => v == j) (fun _ => false) (fun _ => false))).2,
        Statement.setLocalS ⟨j, value⟩,
        (st.leakInto
            (readGet (fun v => v == j) (fun _ => false) (fun _ => false))).1.varList,
        [Expression.getLocal j], ?_, ?_, ?_, ?_, ?_, by simp⟩
      · rw [hred, hcode]
        try simp [List.append_assoc]
      · intro s hs
        exact leakInto_stmts _ _ s hs
      · simp [stmtWritesHazard]
      · rw [hred, hstack]
        try simp [Stack.push]
      · intro e he
        rcases leakInto_entries _ _ e he with ⟨_, hcond⟩ | ⟨v, rfl⟩
        · simpa only [readsHazard] using hcond
        · exact readsHazard_temp _ _
    | globalH i => exact absurd hw (by simp [opWritesHazard])
    | memoryH i => exact absurd hw (by simp [opWritesHazard])
  | globalSet j =>
    cases x with
    | globalH i =>
      have hji : j = i := by simpa [opWritesHazard] using hw
      subst hji
      rcases hp : f.target.stack.pop with ⟨value, st⟩
      have hred : addInstruction info f (Op.globalSet j)
          = { f with target :=
              { StatList.leakGlobalWrite { f.target with stack := st } j with
                  code := (StatList.leakGlobalWrite
                      { f.target with stack := st } j).code
                    ++ [Statement.setGlobalS ⟨j, value⟩] } } := by
        simp only [addInstruction, StatList.tryAddOperation, hp]
      obtain ⟨hcode, hstack⟩ :=
        leakGlobalWrite_spec { f.target with stack := st } j
      refine ⟨(st.leakInto
            (readGet (fun _ => false) (fun v => v == j) (fun _ => false))).2,
        Statement.setGlobalS ⟨j, value⟩,
        (st.leakInto
            (readGet (fun _ => false) (fun v => v == j) (fun _ => false))).1.varList,
        [], ?_, ?_, ?_, ?_, ?_, by simp⟩
      · rw [hred, hcode]
        try simp [List.append_assoc]
      · intro s hs
        exact leakInto_stmts _ _ s hs
      · simp [stmtWritesHazard]
      · rw [hred, hstack]
        try simp
      · intro e he
        rcases leakInto_entries _ _ e he with ⟨_, hcond⟩ | ⟨v, rfl⟩
        · simpa only [readsHazard] using hcond
        · exact readsHazard_temp _ _
    | localH i => exact absurd hw (by simp [opWritesHazard])
    | memoryH i => exact absurd hw (by simp [opWritesHazard])
  | store ty arg =>
    cases x with
    | memoryH i =>
      have hji : arg.memory = i := by simpa [opWritesHazard] using hw
      subst hji
      rcases hp1 : f.target.stack.pop with ⟨value, st1⟩
      rcases hp2 : st1.pop with ⟨pointer, st2⟩
      have hred : addInstruction info f (Op.store ty arg)
          = { f with target :=
              { StatList.leakMemoryWrite
                  { f.target with stack := st2 } arg.memory with
                  code := (StatList.leakMemoryWrite
                      { f.target with stack := st2 } arg.memory).code
                    ++ [Statement.storeAtS
                          ⟨ty, arg.memory, arg.offset, value, pointer⟩] } } := by
        simp only [addInstruction, StatList.tryAddOperation,
          StatList.addStore, hp1, hp2]
      obtain ⟨hcode, hstack⟩ :=
        leakMemoryWrite_spec { f.target with stack := st2 } arg.memory
      refine ⟨(st2.leakInto
            (readGet (fun _ => false) (fun _ => false)
              (fun v => v == arg.memory))).2,
        Statement.storeAtS ⟨ty, arg.memory, arg.offset, value, pointer⟩,
        (st2.leakInto
            (readGet (fun _ => false) (fun _ => false)
              (fun v => v == arg.memory))).1.varList,
        [], ?_, ?_, ?_, ?_, ?_, by simp⟩
      · rw [hred, hcode]
        try simp [List.append_assoc]
      · intro s hs
        exact leakInto_stmts _ _ s hs
      · simp [stmtWritesHazard]
      · rw [hred, hstack]
        try simp
      · intro e he
        rcases leakInto_entries _ _ e he with ⟨_, hcond⟩ | ⟨v, rfl⟩
        · simpa only [readsHazard] using hcond
        · exact readsHazard_temp _ _
    | localH i => exact absurd hw (by simp [opWritesHazard])
    | globalH i => exact absurd hw (by simp [opWritesHazard])
  | memoryGrow mem =>
    cases x with
    | memoryH i =>
      have hji : mem = i := by simpa [opWritesHazard] using hw
      subst hji
      rcases hp1 : f.target.stack.pop with ⟨size, st1⟩
      rcases hp2 : st1.pushTemporary with ⟨result, st2⟩
      have hred : addInstruction info f (Op.memoryGrow mem)
          = { f with target :=
              { StatList.leakMemoryWrite
                  { f.target with stack := st2 } mem with
                  code := (StatList.leakMemoryWrite
                      { f.target with stack := st2 } mem).code
                    ++ [Statement.memoryGrowS ⟨mem, result, size⟩] } } := by
        simp only [addInstruction, StatList.tryAddOperation, hp1, hp2]
      obtain ⟨hcode, hstack⟩ :=
        leakMemoryWrite_spec { f.target with stack := st2 } mem
      refine ⟨(st2.leakInto
            (readGet (fun _ => false) (fun _ => false) (fun v => v == mem))).2,
        Statement.memoryGrowS ⟨mem, result, size⟩,
        (st2.leakInto
            (readGet (fun _ => false) (fun _ => false)
              (fun v => v == mem))).1.varList,
        [], ?_, ?_, ?_, ?_, ?_, by simp⟩
      · rw [hred, hcode]
        try simp [List.append_assoc]
      · intro s hs
        exact leakInto_stmts _ _ s hs
      · simp [stmtWritesHazard]
      · rw [hred, hstack]
        try simp
      · intro e he
        rcases leakInto_entries _ _ e he with ⟨_, hcond⟩ | ⟨v, rfl⟩
        · simpa only [readsHazard] using hcond
        · exact readsHazard_temp _ _
    | localH i => exact absurd hw (by simp [opWritesHazard])
    | globalH i => exact absurd hw (by simp [opWritesHazard])
  | memoryCopy dst src =>
    cases x with
    | memoryH i =>
      have hw2 : dst = i ∨ src = i := by simpa [opWritesHazard] using hw
      rcases hp1 : f.target.stack.pop with ⟨size, st1⟩
      rcases hp2 : st1.pop with ⟨srcPtr, st2⟩
      rcases hp3 : st2.pop with ⟨dstPtr, st3⟩
      have hred : addInstruction info f (Op.memoryCopy dst src)
          = { f with target :=
              { StatList.leakMemoryWrite
                  (StatList.leakMemoryWrite
                    { f.target with stack := st3 } src) dst with
                  code := (StatList.leakMemoryWrite
                      (StatList.leakMemoryWrite
                        { f.target with stack := st3 } src) dst).code
                    ++ [Statement.memoryCopyS
                          ⟨⟨dst, dstPtr⟩, ⟨src, srcPtr⟩, size⟩] } } := by
        simp only [addInstruction, StatList.tryAddOperation, hp1, hp2, hp3]
      obtain ⟨hcode1, hstack1⟩ :=
        leakMemoryWrite_spec { f.target with stack := st3 } src
      obtain ⟨hcode2, hstack2⟩ :=
        leakMemoryWrite_spec
          (StatList.leakMemoryWrite { f.target with stack := st3 } src) dst
      refine ⟨(st3.leakInto
            (readGet (fun _ => false) (fun _ => false) (fun v => v == src))).2
          ++ ((StatList.leakMemoryWrite
                { f.target with stack := st3 } src).stack.leakInto
              (readGet (fun _ => false) (fun _ => false) (fun v => v == dst))).2,
        Statement.memoryCopyS ⟨⟨dst, dstPtr⟩, ⟨src, srcPtr⟩, size⟩,
        ((StatList.leakMemoryWrite
              { f.target with stack := st3 } src).stack.leakInto
            (readGet (fun _ => false) (fun _ => false)
              (fun v => v == dst))).1.varList,
        [], ?_, ?_, ?_, ?_, ?_, by simp⟩
      · rw [hred, hcode2, hcode1]
        try simp [List.append_assoc]
      · intro s hs
        rcases List.mem_append.mp hs with h1 | h2
        · exact leakInto_stmts _ _ s h1
        · exact leakInto_stmts _ _ s h2
      · rcases hw2 with rfl | rfl <;> simp [stmtWritesHazard]
      · rw [hred, hstack2]
        try simp
      · intro e he
        rcases leakInto_entries _ _ e he with ⟨hm2, hc2⟩ | ⟨v, rfl⟩
        · rw [hstack1] at hm2
          rcases leakInto_entries _ _ e hm2 with ⟨_, hc1⟩ | ⟨v, rfl⟩
          · rcases hw2 with rfl | rfl
            · simpa only [readsHazard] using hc2
            · simpa only [readsHazard] using hc1
          · exact readsHazard_temp _ _
        · exact readsHazard_temp _ _
    | localH i => exact absurd hw (by simp [opWritesHazard])
    | globalH i => exact absurd hw (by simp [opWritesHazard])
  | memoryFill mem =>
    cases x with
    | memoryH i =>
      have hji : mem = i := by simpa [opWritesHazard] using hw
      subst hji
      rcases hp1 : f.target.stack.pop with ⟨size, st1⟩
      rcases hp2 : st1.pop with ⟨value, st2⟩
      rcases hp3 : st2.pop with ⟨dstPtr, st3⟩
      have hred : addInstruction info f (Op.memoryFill mem)
          = { f with target :=
              { StatList.leakMemoryWrite
                  { f.target with stack := st3 } mem with
                  code := (StatList.leakMemoryWrite
                      { f.target with stack := st3 } mem).code
                    ++ [Statement.memoryFillS
                          ⟨⟨mem, dstPtr⟩, size, value⟩] } } := by
        simp only [addInstruction, StatList.tryAddOperation, hp1, hp2, hp3]
      obtain ⟨hcode, hstack⟩ :=
        leakMemoryWrite_spec { f.target with stack := st3 } mem
      refine ⟨(st3.leakInto
            (readGet (fun _ => false) (fun _ => false) (fun v => v == mem))).2,
        Statement.memoryFillS ⟨⟨mem, dstPtr⟩, size, value⟩,
        (st3.leakInto
            (readGet (fun _ => false) (fun _ => false)
              (fun v => v == mem))).1.varList,
        [], ?_, ?_, ?_, ?_, ?_, by simp⟩
      · rw [hred, hcode]
        try simp [List.append_assoc]
      · intro s hs
        exact leakInto_stmts _ _ s hs
      · simp [stmtWritesHazard]
      · rw [hred, hstack]
        try simp
      · intro e he
        rcases leakInto_entries _ _ e he with ⟨_, hcond⟩ | ⟨v, rfl⟩
        · simpa only [readsHazard] using hcond
        · exact readsHazard_temp _ _
    | localH i => exact absurd hw (by simp [opWritesHazard])
    | globalH i => exact absurd hw (by simp [opWritesHazard])
  | _ => exact absurd hw (by cases x <;> simp [opWritesHazard])

end Factory

namespace Factory

open WasmAst

/-- Witness for `spill_soundness`: `local.set 0` on the fresh factory
state. -/
theorem spill_soundness_witness :
    opWritesHazard (Op.localSet 0) (Hazard.localH 0) = true ∧
    ∃ spills w kept pushed,
      (addInstruction ⟨fun _ => (0, 0), fun _ => (0, 0), fun _ => (0, 0)⟩
          FactoryState.new (Op.localSet 0)).target.code
        = FactoryState.new.target.code ++ spills ++ [w] ∧
      (∀ s ∈ spills, ∃ a, s = Statement.setTemporaryS a) ∧
      stmtWritesHazard w (Hazard.localH 0) = true ∧
      (addInstruction ⟨fun _ => (0, 0), fun _ => (0, 0), fun _ => (0, 0)⟩
          FactoryState.new (Op.localSet 0)).target.stack.varList
        = kept ++ pushed ∧
      (∀ e ∈ kept, readsHazard (Hazard.localH 0) e = false) ∧
      pushed.length ≤ 1 :=
  ⟨rfl, spill_soundness ⟨fun _ => (0, 0), fun _ => (0, 0), fun _ => (0, 0)⟩
    FactoryState.new (Op.localSet 0) (Hazard.localH 0) rfl⟩

theorem preCallCond_temp (v : Nat) :
    preCallCond (Expression.getTemporary v) = false := rfl

theorem leakAux_length (prev : Nat) (cond : Expression → Bool) :
    ∀ (i : Nat) (l : List Expression),
    (leakAux prev cond i l).1.length = l.length := by
  intro i l
  induction l generalizing i with
  | nil => simp [leakAux]
  | cons a rest ih =>
    simp only [leakAux]
    rcases hrec : leakAux prev cond (i + 1) rest with ⟨rest2, stmts⟩
    have h2 := ih (i + 1)
    rw [hrec] at h2
    by_cases hc : a = Expression.getTemporary (prev + i) ∨ cond a = false
    · rw [if_pos hc]
      simp [h2]
    · rw [if_neg hc]
      simp [h2]

end Factory

namespace Factory

open WasmAst

/-- C4: call barrier.  `add_call` and `add_call_indirect` run
`leak_pre_call` before appending the call statement: the emitted code is
the old code, then `SetTemporary` spills, then the call; afterwards no
expression pending on the operand stack can observe the call (none reads a
global or a memory), while entries unobservable by the call — the pure
gets — are kept pending at their positions; and a `local.get` processed
after the call pushes a fresh `GetLocal`, not a cached pre-call value. -/
theorem call_barrier (info : TypeInfo) (f : FactoryState)
    (fn ty table : Nat) :
    (∃ spills params results,
      (addCall info f fn).target.code
        = f.target.code ++ spills
          ++ [Statement.callS ⟨fn, params, results⟩] ∧
      (∀ s ∈ spills, ∃ a, s = Statement.setTemporaryS a) ∧
      (∀ e ∈ (addCall info f fn).target.stack.varList,
        preCallCond e = false) ∧
      (∀ j e, f.target.stack.varList.get? j = some e →
        preCallCond e = false →
        j < f.target.stack.varList.length - (info.byFuncIndex fn).1 →
        (addCall info f fn).target.stack.varList.get? j = some e)) ∧
    (∃ spills index params results,
      (addCallIndirect info f ty table).target.code
        = f.target.code ++ spills
          ++ [Statement.callIndirectS ⟨table, index, params, results⟩] ∧
      (∀ s ∈ spills, ∃ a, s = Statement.setTemporaryS a) ∧
      (∀ e ∈ (addCallIndirect info f ty table).target.stack.varList,
        preCallCond e = false)) ∧
    (∀ (g : FactoryState) (j : Nat),
      (addInstruction info g (Op.localGet j)).target.stack.varList
        = g.target.stack.varList ++ [Expression.getLocal j]) := by
  refine ⟨?_, ?_, ?_⟩
  · rcases hI : info.byFuncIndex fn with ⟨numParam, numResult⟩
    rcases hp1 : f.target.stack.popLen numParam with ⟨paramList, st1⟩
    rcases hp2 : (StatList.leakPreCall
        { f.target with stack := st1 }).stack.pushTemporaries numResult with
      ⟨resultList, st2⟩
    have hred : addCall info f fn
        = { f with target :=
            { StatList.leakPreCall { f.target with stack := st1 } with
                stack := st2,
                code := (StatList.leakPreCall
                    { f.target with stack := st1 }).code
                  ++ [Statement.callS ⟨fn, paramList, resultList⟩] } } := by
      simp only [addCall, hI, hp1, hp2]
    obtain ⟨hcode, hstack⟩ :=
      leakPreCall_spec { f.target with stack := st1 }
    have hst2 : st2.varList
        = (StatList.leakPreCall
            { f.target with stack := st1 }).stack.varList
          ++ (List.range numResult).map
            (fun k => Expression.getTemporary
              ((StatList.leakPreCall
                  { f.target with stack := st1 }).stack.previous
                + (StatList.leakPreCall
                    { f.target with stack := st1 }).stack.varList.length
                + k)) := by
      have h9 := congrArg (fun p => (Prod.snd p).varList) hp2
      simpa [Stack.pushTemporaries] using h9.symm
    refine ⟨(st1.leakInto preCallCond).2, paramList, resultList, ?_, ?_, ?_, ?_⟩
    · rw [hred, hcode]
      try simp [List.append_assoc]
    · intro s hs
      exact leakInto_stmts _ _ s hs
    · intro e he
      have he2 : e ∈ st2.varList := by
        rw [hred] at he
        exact he
      rw [hst2] at he2
      rcases List.mem_append.mp he2 with h1 | h2
      · have h3 : e ∈ (st1.leakInto preCallCond).1.varList := by
          rw [hstack] at h1
          exact h1
        rcases leakInto_entries _ _ e h3 with ⟨_, hc⟩ | ⟨v, rfl⟩
        · exact hc
        · exact preCallCond_temp _
      · rcases List.mem_map.mp h2 with ⟨k, _, hke⟩
        rw [← hke]
        exact preCallCond_temp _
    · intro j e hj hc hlt
      have hlt2 : j < f.target.stack.varList.length - numParam := hlt
      have hst1 : st1.varList
          = f.target.stack.varList.take
            (f.target.stack.varList.length - numParam) := by
        have h9 := congrArg (fun p => (Prod.snd p).varList) hp1
        simpa [Stack.popLen] using h9.symm
      have h10 : st1.varList.get? j = some e := by
        rw [hst1, List.get?_take hlt2]
        exact hj
      have h11 := leakInto_preserve st1 preCallCond j e h10 hc
      have h12 : (StatList.leakPreCall
          { f.target with stack := st1 }).stack.varList.get? j = some e := by
        rw [hstack]
        exact h11
      have hjlt : j < (StatList.leakPreCall
          { f.target with stack := st1 }).stack.varList.length := by
        rcases List.get?_eq_some.mp h12 with ⟨h, _⟩
        exact h
      have h13 : st2.varList.get? j = some e := by
        rw [hst2, List.get?_append hjlt]
        exact h12
      rw [hred]
      exact h13
  · rcases hI : info.byTypeIndex ty with ⟨numParam, numResult⟩
    rcases hp0 : f.target.stack.pop with ⟨index, st0⟩
    rcases hp1 : st0.popLen numParam with ⟨paramList, st1⟩
    rcases hp2 : (StatList.leakPreCall
        { f.target with stack := st1 }).stack.pushTemporaries numResult with
      ⟨resultList, st2⟩
    have hred : addCallIndirect info f ty table
        = { f with target :=
            { StatList.leakPreCall { f.target with stack := st1 } with
                stack := st2,
                code := (StatList.leakPreCall
                    { f.target with stack := st1 }).code
                  ++ [Statement.callIndirectS
                        ⟨table, index, paramList, resultList⟩] } } := by
      simp only [addCallIndirect, hI, hp0, hp1, hp2]
    obtain ⟨hcode, hstack⟩ :=
      leakPreCall_spec { f.target with stack := st1 }
    have hst2 : st2.varList
        = (StatList.leakPreCall
            { f.target with stack := st1 }).stack.varList
          ++ (List.range numResult).map
            (fun k => Expression.getTemporary
              ((StatList.leakPreCall
                  { f.target with stack := st1 }).stack.previous
                + (StatList.leakPreCall
                    { f.target with stack := st1 }).stack.varList.length
                + k)) := by
      have h9 := congrArg (fun p => (Prod.snd p).varList) hp2
      simpa [Stack.pushTemporaries] using h9.symm
    refine ⟨(st1.leakInto preCallCond).2, index, paramList, resultList,
      ?_, ?_, ?_⟩
    · rw [hred, hcode]
      try simp [List.append_assoc]
    · intro s hs
      exact leakInto_stmts _ _ s hs
    · intro e he
      have he2 : e ∈ st2.varList := by
        rw [hred] at he
        exact he
      rw [hst2] at he2
      rcases List.mem_append.mp he2 with h1 | h2
      · have h3 : e ∈ (st1.leakInto preCallCond).1.varList := by
          rw [hstack] at h1
          exact h1
        rcases leakInto_entries _ _ e h3 with ⟨_, hc⟩ | ⟨v, rfl⟩
        · exact hc
        · exact preCallCond_temp _
      · rcases List.mem_map.mp h2 with ⟨k, _, hke⟩
        rw [← hke]
        exact preCallCond_temp _
  · intro g j
    simp [addInstruction, StatList.tryAddOperation, Stack.push]

end Factory
